import Mathlib

/-!
A shallow embedding of `sparsetest.c` and the properties proved of it.

The C program keeps its configuration in file-scope variables of type `off_t`
(64 bit, signed, because of `_FILE_OFFSET_BITS 64`).  Values of that type are
embedded as `Int`, and every arithmetic result stored in an `off_t` goes through
`wrapOff`, the two's complement reduction to `[-2^63, 2^63)`: this is what the
compiled program computes where C leaves signed overflow undefined, and no value
outside that range can be held by an `off_t` in any case.  C strings are lists of
characters; reading past the last character yields the terminating NUL.  Calls of
`exit (k)` are embedded as `Except.error k`.  Loops whose number of iterations is
fixed on entry are folds over `List.range`; the generation loop of `main`, which
need not terminate once `offset` wraps around, takes a bound on its iterations.
-/

namespace Sparsetest

deriving instance DecidableEq for Except

/-! ## Machine integers -/

/-- Reduction of an integer to the range of `off_t`, two's complement. -/
def wrapOff (x : Int) : Int := (x + 2 ^ 63) % 2 ^ 64 - 2 ^ 63

/-- Largest value of `unsigned long long`. -/
def ULLONG_MAX : Nat := 2 ^ 64 - 1

/-! ## The C library functions used by `getsize` -/

/-- The character read through a `char *`: the head of the remaining string, NUL at its end. -/
def deref (p : List Char) : Char := p.headD (Char.ofNat 0)

/-- The library function `isspace` in the C locale: space, and the controls 9 to 13. -/
def isspace (c : Char) : Bool := c.toNat == 32 || (9 ≤ c.toNat && c.toNat ≤ 13)

/-- The library function `isdigit`. -/
def isdigit (c : Char) : Bool := 48 ≤ c.toNat && c.toNat ≤ 57

/-- The library function `tolower` in the C locale. -/
def tolower (c : Char) : Char :=
  if 65 ≤ c.toNat ∧ c.toNat ≤ 90 then Char.ofNat (c.toNat + 32) else c

/-- Value of a decimal digit character. -/
def digitVal (c : Char) : Nat := c.toNat - 48

/-- The digit loop of `strtoull`: consumes the longest run of digits, accumulating in base 10,
and returns the accumulated number with the unread rest of the string. -/
def accDigits (acc : Nat) : List Char → Nat × List Char
  | [] => (acc, [])
  | c :: cs => if isdigit c then accDigits (10 * acc + digitVal c) cs else (acc, c :: cs)

/-- Skipping of leading white space in `strtoull`. -/
def skipSpace : List Char → List Char
  | [] => []
  | c :: cs => if isspace c then skipSpace cs else c :: cs

/-- The optional sign of `strtoull`: whether a minus sign was read, and the rest. -/
def skipSign : List Char → Bool × List Char
  | [] => (false, [])
  | c :: t =>
    if c = Char.ofNat 45 then (true, t)
    else if c = Char.ofNat 43 then (false, t)
    else (false, c :: t)

/-- The library function `strtoull (nptr, &end, 10)`: the converted value and `end`.
White space is skipped, one sign is accepted, the digits are read; without any digit the
value is 0 and `end` is `nptr`; a value above `ULLONG_MAX` is replaced by `ULLONG_MAX`;
a minus sign negates the value in `unsigned long long`. -/
def strtoull (nptr : List Char) : Nat × List Char :=
  let signed := skipSign (skipSpace nptr)
  if isdigit (deref signed.2) then
    let r := accDigits 0 signed.2
    if ULLONG_MAX < r.1 then (ULLONG_MAX, r.2)
    else if signed.1 then ((2 ^ 64 - r.1) % 2 ^ 64, r.2)
    else (r.1, r.2)
  else (0, nptr)

/-- The library function `strchr (s, c)` for a character `c` other than NUL: the index of the
first occurrence of `c` in `s` (the pointer difference `found - s`), or `none` for `NULL`. -/
def strchr : List Char → Char → Option Nat
  | [], _ => none
  | x :: xs, c => if x = c then some 0 else (strchr xs c).map (· + 1)

/-! ## `getsize` -/

/-- The string `suffix` of `getsize`. -/
def suffix : List Char := [Char.ofNat 98, Char.ofNat 107, Char.ofNat 109, Char.ofNat 103,
  Char.ofNat 116, Char.ofNat 112, Char.ofNat 101]

/-- The function `getsize`, with the file-scope variable `blocksize` it reads as an argument.
`Except.error 1` is `exit (1)`. -/
def getsize (blocksize : Int) (arg : List Char) : Except Nat Int :=
  let r := strtoull arg
  let param : Int := wrapOff (r.1 : Int)
  if deref r.2 = Char.ofNat 0 then
    Except.ok (wrapOff (param * blocksize))
  else
    match strchr suffix (tolower (deref r.2)) with
    | some k => Except.ok (wrapOff (param * 2 ^ (10 * k)))
    | none => Except.error 1

/-! ## Option resolution in `parse_command_line` -/

/-- The type `order_t`. -/
inductive order_t where
  | ASCENDING
  | DESCENDING
  | RANDOM
deriving DecidableEq, Repr

/-- The file-scope variables of the program. -/
structure Globals where
  blocksize : Int
  logicalsize : Int
  writeevery : Int
  order : order_t
  initialtruncate : Bool
deriving DecidableEq, Repr

/-- The initial values of the file-scope variables. -/
def initialGlobals : Globals :=
  { blocksize := 512, logicalsize := 1024 * 1024 * 1024, writeevery := 1024 * 1024,
    order := order_t.ASCENDING, initialtruncate := false }

/-- The block `if (blocksize_arg)` of `parse_command_line` ("Do blocksize first"):
`blocksize_arg` is the string kept by the option loop (`none` for `NULL`), `sizeofInt` is
`sizeof (int)` of the platform, `g` holds the file-scope variables on entry. -/
def resolveBlocksize (sizeofInt : Nat) (g : Globals) (blocksize_arg : Option (List Char)) :
    Except Nat Globals :=
  match blocksize_arg with
  | some a => do
      let b ← getsize g.blocksize a
      if b ≤ 0 ∨ b.toNat % sizeofInt ≠ 0 then Except.error 1
      else pure { g with blocksize := b }
  | none => pure g

/-- The block `if (logicalsize_arg) ... else if (logicalsize < blocksize * 4) ...` of
`parse_command_line` with the check `if (logicalsize < blocksize)` that follows it. -/
def resolveLogicalsize (g : Globals) (logicalsize_arg : Option (List Char)) :
    Except Nat Globals := do
  let g1 ← match logicalsize_arg with
    | some a => do
        let l ← getsize g.blocksize a
        pure { g with logicalsize := l }
    | none =>
        if g.logicalsize < wrapOff (g.blocksize * 4) then
          pure { g with logicalsize := wrapOff (g.blocksize * 4) }
        else pure g
  if g1.logicalsize < g1.blocksize then Except.error 1 else pure g1

/-- The block `if (writeevery_arg) ... else if (writeevery < blocksize * 2) ...` of
`parse_command_line` with the check `if (writeevery < blocksize)` that follows it. -/
def resolveWriteevery (g : Globals) (writeevery_arg : Option (List Char)) :
    Except Nat Globals := do
  let g1 ← match writeevery_arg with
    | some a => do
        let w ← getsize g.blocksize a
        pure { g with writeevery := w }
    | none =>
        if g.writeevery < wrapOff (g.blocksize * 2) then
          pure { g with writeevery := wrapOff (g.blocksize * 2) }
        else pure g
  if g1.writeevery < g1.blocksize then Except.error 1 else pure g1

/-- The part of `parse_command_line` between the option loop and the check of the remaining
parameters: the three sizes are resolved in the order block size, logical size, write-every. -/
def resolveSizes (sizeofInt : Nat) (g : Globals)
    (blocksize_arg logicalsize_arg writeevery_arg : Option (List Char)) : Except Nat Globals := do
  let g1 ← resolveBlocksize sizeofInt g blocksize_arg
  let g2 ← resolveLogicalsize g1 logicalsize_arg
  resolveWriteevery g2 writeevery_arg

/-! ## The offset sequence in `main` -/

/-- The variables of the generation loop of `main`: `offsets` holds the entries
`offsets[0]`, ..., `offsets[count - 1]` stored so far, and `count` is its length. -/
structure GenState where
  offset : Int
  optimumpsize : Int
  offsets : List Int
deriving DecidableEq, Repr

/-- The state of the generation loop on entry. -/
def genInit : GenState := { offset := 0, optimumpsize := 0, offsets := [] }

/-- The generation loop `for (offset = 0; offset + blocksize <= logicalsize; offset += writeevery)`
of `main`, run for at most `fuel` evaluations of its condition: `some s` is the state in which
the condition failed, `none` says that the loop was still running when the fuel ran out. -/
def genLoop (blocksize logicalsize writeevery : Int) : Nat → GenState → Option GenState
  | 0, _ => none
  | fuel + 1, s =>
    if wrapOff (s.offset + blocksize) ≤ logicalsize then
      genLoop blocksize logicalsize writeevery fuel
        { offset := wrapOff (s.offset + writeevery)
          optimumpsize := wrapOff (s.optimumpsize + blocksize)
          offsets := s.offsets ++ [s.offset] }
    else some s

/-- The three statements that exchange `offsets[i]` and `offsets[j]`. -/
def swap (offsets : List Int) (i j : Nat) : List Int :=
  let t := offsets.getD j 0
  let offsets1 := offsets.set j (offsets.getD i 0)
  offsets1.set i t

/-- The function `shuffle`.  `random k` is the result of the call of `random ()` made in
iteration `k`; the index arithmetic is in `unsigned long long` and stays below `n`. -/
def shuffle (RAND_MAX : Nat) (random : Nat → Nat) (offsets : List Int) (n : Nat) : List Int :=
  if n ≤ 1 then offsets
  else
    (List.range (n - 1)).foldl
      (fun a i => swap a i (i + random i / (RAND_MAX / (n - i) + 1))) offsets

/-- The function `reverse`. -/
def reverse (offsets : List Int) (n : Nat) : List Int :=
  if n ≤ 1 then offsets
  else (List.range (n / 2)).foldl (fun a i => swap a i (n - 1 - i)) offsets

/-- The `switch (order)` of `main`, applied to the first `count` entries of `offsets`. -/
def reorder (RAND_MAX : Nat) (random : Nat → Nat) (order : order_t) (offsets : List Int)
    (count : Nat) : List Int :=
  match order with
  | order_t.RANDOM => shuffle RAND_MAX random offsets count
  | order_t.DESCENDING => reverse offsets count
  | order_t.ASCENDING => offsets

/-- The index `j` that iteration `i` of `shuffle` computes from the result `r` of
`random ()`: `i + random () / (RAND_MAX / (n - i) + 1)`. -/
def shuffleIndex (RAND_MAX n i r : Nat) : Nat := i + r / (RAND_MAX / (n - i) + 1)

/-- The number of entries that `main` asks `calloc` for the array `offsets`:
`logicalsize / writeevery + 2`, the division of C truncating. -/
def offsetsAllocated (logicalsize writeevery : Int) : Int :=
  wrapOff (logicalsize.tdiv writeevery + 2)

/-! ## The option loop of `parse_command_line` -/

/-- How the program ended inside `parse_command_line`: whether `usage ()` was called, and
the argument of `exit`. -/
structure Exit where
  usage : Bool
  status : Nat
deriving DecidableEq, Repr

/-- The local variables of `parse_command_line` together with the file-scope variables. -/
structure ParseState where
  globals : Globals
  blocksize_arg : Option (List Char)
  logicalsize_arg : Option (List Char)
  writeevery_arg : Option (List Char)
deriving DecidableEq, Repr

/-- The state on entry of `parse_command_line`. -/
def parseInit : ParseState :=
  { globals := initialGlobals, blocksize_arg := none, logicalsize_arg := none,
    writeevery_arg := none }

/-- The `while (1)` loop of `parse_command_line`.  The list holds what the successive calls of
`getopt_long` return, the value `c` with the `optarg` of that call; after the last entry
`getopt_long` returns -1. -/
def optionLoop : List (Int × List Char) → ParseState → Except Exit ParseState
  | [], st => Except.ok st
  | (c, optarg) :: rest, st =>
    if c = -1 then Except.ok st
    else if c = 0 then optionLoop rest st
    else if c = 104 then Except.error { usage := true, status := 0 }
    else if c = 98 then optionLoop rest { st with blocksize_arg := some optarg }
    else if c = 115 then optionLoop rest { st with logicalsize_arg := some optarg }
    else if c = 119 then optionLoop rest { st with writeevery_arg := some optarg }
    else if c = 105 then
      optionLoop rest { st with globals := { st.globals with initialtruncate := true } }
    else if c = 100 then
      optionLoop rest { st with globals := { st.globals with order := order_t.DESCENDING } }
    else if c = 114 then
      optionLoop rest { st with globals := { st.globals with order := order_t.RANDOM } }
    else Except.error { usage := true, status := 1 }

/-- The function `parse_command_line`: the option loop, the resolution of the sizes, the check
that one parameter remains (`remaining` is `argc - optind`) and the call of `open`, which
succeeds or not (`openOk`).  The result is the file-scope variables on return. -/
def parse_command_line (sizeofInt : Nat) (opts : List (Int × List Char)) (remaining : Nat)
    (openOk : Bool) : Except Exit Globals :=
  match optionLoop opts parseInit with
  | Except.error e => Except.error e
  | Except.ok st =>
    match resolveSizes sizeofInt st.globals st.blocksize_arg st.logicalsize_arg
        st.writeevery_arg with
    | Except.error k => Except.error { usage := false, status := k }
    | Except.ok g =>
      if remaining ≠ 1 then Except.error { usage := true, status := 1 }
      else if openOk then Except.ok g
      else Except.error { usage := false, status := 3 }

/-! ## The writes of `main` -/

/-- The length of the destination file after `pwrite (dest, junk, blocksize, offset)` has
written the whole block, in the file model of the specification: a write extends the file
only when it ends past its length. -/
def pwriteLength (length blocksize offset : Int) : Int := max length (offset + blocksize)

/-- The length of the destination file through the part of `main` from the first `ftruncate`
to the second, every call succeeding: the file is empty after `open` with `O_TRUNC`,
`ftruncate (dest, logicalsize)` sets the length, and the write loop writes one block at every
entry of `offsets` in turn. -/
def writePhase (initialtruncate : Bool) (blocksize logicalsize : Int) (offsets : List Int) :
    Int :=
  let length0 : Int := 0
  let length1 := if initialtruncate then logicalsize else length0
  let length2 := offsets.foldl (fun length offset => pwriteLength length blocksize offset) length1
  if !initialtruncate then logicalsize else length2

/-! ## Notions of the specification -/

/-- The unit letters of the usage text in upper case, in the order of their powers. -/
def unitsUpper : List Char := ['B', 'K', 'M', 'G', 'T', 'P', 'E']

/-- The unit letters of the usage text in lower case, in the order of their powers. -/
def unitsLower : List Char := ['b', 'k', 'm', 'g', 't', 'p', 'e']

/-- The number a string of decimal digits denotes, most significant digit first. -/
def decimalValue (ds : List Char) : Nat := Nat.ofDigits 10 ((ds.map digitVal).reverse)

/-- The length of the offset sequence as the specification gives it:
`floor ((logicalSize - blockSize) / writeEvery) + 1` when `logicalSize >= blockSize`, else 0. -/
def specOffsetCount (blockSize logicalSize writeEvery : Int) : Nat :=
  if blockSize ≤ logicalSize then ((logicalSize - blockSize) / writeEvery + 1).toNat else 0

/-- The number of results `r` of `random ()` in `0 .. RAND_MAX` for which iteration `i` of
`shuffle` on `n` offsets picks the index `j`. -/
def selectCount (RAND_MAX n i j : Nat) : Nat :=
  ((Finset.range (RAND_MAX + 1)).filter (fun r => shuffleIndex RAND_MAX n i r = j)).card

/-- The set of the bytes of the file that blocks of `blocksize` bytes written at the given
offsets cover. -/
def writtenBytes (blocksize : Int) (offsets : List Int) : Finset Int :=
  offsets.foldr (fun offset acc => Finset.Ico offset (offset + blocksize) ∪ acc) ∅

/-! ## Facts about `wrapOff` -/

theorem wrapOff_of_range (x : Int) (h1 : -(2 ^ 63) ≤ x) (h2 : x < 2 ^ 63) : wrapOff x = x := by
  unfold wrapOff
  omega

theorem wrapOff_range (x : Int) : -(2 ^ 63) ≤ wrapOff x ∧ wrapOff x < 2 ^ 63 := by
  unfold wrapOff
  omega

theorem wrapOff_sub_dvd (a : Int) : (2 ^ 64 : Int) ∣ wrapOff a - a := by
  unfold wrapOff
  omega

theorem wrapOff_congr (a b : Int) (h : (2 ^ 64 : Int) ∣ a - b) : wrapOff a = wrapOff b := by
  unfold wrapOff
  obtain ⟨t, ht⟩ := h
  have hab : a = b + 2 ^ 64 * t := by omega
  rw [hab, add_right_comm, Int.add_mul_emod_self_left]

theorem wrapOff_mul_wrapOff (a b : Int) : wrapOff (wrapOff a * b) = wrapOff (a * b) := by
  apply wrapOff_congr
  have hfac : wrapOff a * b - a * b = (wrapOff a - a) * b := by ring
  rw [hfac]
  exact Dvd.dvd.mul_right (wrapOff_sub_dvd a) b

theorem wrapOff_add_wrapOff (a b : Int) : wrapOff (wrapOff a + b) = wrapOff (a + b) := by
  apply wrapOff_congr
  have hfac : wrapOff a + b - (a + b) = wrapOff a - a := by ring
  rw [hfac]
  exact wrapOff_sub_dvd a

/-! ## Facts about `strtoull` on digit strings -/

theorem decimalValue_cons (c : Char) (cs : List Char) :
    decimalValue (c :: cs) = digitVal c * 10 ^ cs.length + decimalValue cs := by
  unfold decimalValue
  rw [List.map_cons, List.reverse_cons, Nat.ofDigits_append]
  simp [Nat.ofDigits_singleton, mul_comm, add_comm]

theorem accDigits_append (ds e : List Char) (hds : ∀ c ∈ ds, isdigit c = true)
    (he : isdigit (deref e) = false) (acc : Nat) :
    accDigits acc (ds ++ e) = (acc * 10 ^ ds.length + decimalValue ds, e) := by
  induction ds generalizing acc with
  | nil =>
    cases e with
    | nil => simp [accDigits, decimalValue]
    | cons x xs =>
      have hx : isdigit x = false := by simpa [deref] using he
      simp [accDigits, decimalValue, hx]
  | cons c cs ih =>
    have hc : isdigit c = true := hds c (List.mem_cons_self c cs)
    have hcs : ∀ d ∈ cs, isdigit d = true := fun d hd => hds d (List.mem_cons_of_mem c hd)
    rw [List.cons_append, accDigits, if_pos hc, ih hcs, decimalValue_cons]
    congr 1
    rw [List.length_cons, pow_succ]
    ring

theorem strtoull_digits (ds e : List Char) (hne : ds ≠ []) (hds : ∀ c ∈ ds, isdigit c = true)
    (he : isdigit (deref e) = false) :
    strtoull (ds ++ e) = (if ULLONG_MAX < decimalValue ds then ULLONG_MAX else decimalValue ds, e) := by
  cases ds with
  | nil => exact absurd rfl hne
  | cons c cs =>
    have hc : isdigit c = true := hds c (List.mem_cons_self c cs)
    have hrange : 48 ≤ c.toNat ∧ c.toNat ≤ 57 := by simpa [isdigit] using hc
    have hsp : isspace c = false := by
      simp [isspace]
      omega
    have hminus : c ≠ Char.ofNat 45 := by
      intro h
      rw [h] at hrange
      revert hrange
      decide
    have hplus : c ≠ Char.ofNat 43 := by
      intro h
      rw [h] at hrange
      revert hrange
      decide
    have hskip : skipSpace (c :: cs ++ e) = c :: cs ++ e := by
      rw [List.cons_append, skipSpace, hsp]
      rfl
    have hsign : skipSign (c :: cs ++ e) = (false, c :: cs ++ e) := by
      rw [List.cons_append, skipSign, if_neg hminus, if_neg hplus]
    have hd : isdigit (deref (c :: cs ++ e)) = true := by
      rw [List.cons_append]
      exact hc
    have hacc := accDigits_append (c :: cs) e hds he 0
    simp only [zero_mul, zero_add] at hacc
    unfold strtoull
    simp only [hskip, hsign, hd, hacc]
    by_cases hbig : ULLONG_MAX < decimalValue (c :: cs)
    · simp [hbig]
    · simp [hbig]

/-! ## `getsize` on well-formed size strings -/

theorem getsize_digits_suffix (blocksize : Int) (ds : List Char) (u : Char) (k : Nat)
    (hne : ds ≠ []) (hds : ∀ c ∈ ds, isdigit c = true)
    (hnd : isdigit u = false) (hnz : u ≠ Char.ofNat 0)
    (hs : strchr suffix (tolower u) = some k)
    (hfit : decimalValue ds * 2 ^ (10 * k) < 2 ^ 63) :
    getsize blocksize (ds ++ [u]) = Except.ok ((decimalValue ds : Int) * 2 ^ (10 * k)) := by
  have hpow : 1 ≤ 2 ^ (10 * k) := Nat.one_le_two_pow
  have hN : decimalValue ds < 2 ^ 63 :=
    lt_of_le_of_lt (Nat.le_mul_of_pos_right _ hpow) hfit
  have hsmall : ¬ ULLONG_MAX < decimalValue ds := by
    unfold ULLONG_MAX
    omega
  have hst := strtoull_digits ds [u] hne hds (by simpa [deref] using hnd)
  rw [if_neg hsmall] at hst
  have hfitZ : ((decimalValue ds : Int) * 2 ^ (10 * k)) < 2 ^ 63 := by exact_mod_cast hfit
  have hposZ : (0 : Int) ≤ (decimalValue ds : Int) * 2 ^ (10 * k) := by positivity
  have hw1 : wrapOff (decimalValue ds : Int) = decimalValue ds :=
    wrapOff_of_range _ (by omega) (by omega)
  have hw2 : wrapOff ((decimalValue ds : Int) * 2 ^ (10 * k)) = (decimalValue ds : Int) * 2 ^ (10 * k) :=
    wrapOff_of_range _ (by omega) hfitZ
  unfold getsize
  simp only [hst, deref, List.headD_cons, if_neg hnz, hs, hw1, hw2]

/-- C1 (as amended): for every string of decimal digits denoting N followed by one unit letter
of index k (B, K, M, G, T, P, E in either case), if N × 2^(10 k) fits `off_t` then `getsize`
returns N × 2^(10 k), whatever the current block size is. -/
theorem getsize_unit_suffix (blocksize : Int) (ds : List Char) (u : Char) (k : Nat)
    (hne : ds ≠ []) (hds : ∀ c ∈ ds, isdigit c = true)
    (hu : unitsUpper[k]? = some u ∨ unitsLower[k]? = some u)
    (hfit : decimalValue ds * 2 ^ (10 * k) < 2 ^ 63) :
    getsize blocksize (ds ++ [u]) = Except.ok ((decimalValue ds : Int) * 2 ^ (10 * k)) := by
  rcases Nat.lt_or_ge k 7 with hk | hk
  · interval_cases k <;> simp [unitsUpper, unitsLower] at hu <;> rcases hu with rfl | rfl <;>
      exact getsize_digits_suffix blocksize ds _ _ hne hds (by decide) (by decide) (by decide) hfit
  · exfalso
    have h1 : unitsUpper[k]? = none := List.getElem?_eq_none (by simpa [unitsUpper] using hk)
    have h2 : unitsLower[k]? = none := List.getElem?_eq_none (by simpa [unitsLower] using hk)
    rw [h1, h2] at hu
    simp at hu

theorem getsize_unit_suffix_witness :
    decimalValue ['1', '0'] = 10 ∧
    getsize 512 ['1', '0', 'K'] = Except.ok ((decimalValue ['1', '0'] : Int) * 2 ^ (10 * 1)) :=
  ⟨by decide,
   getsize_unit_suffix 512 ['1', '0'] 'K' 1 (by decide) (by decide) (by decide) (by decide)⟩

/-- C1 (counterexample): "8E" denotes 8 × 2^60 = 2^63, one more than the largest `off_t`;
`getsize` returns -2^63 for it. -/
theorem getsize_unit_suffix_overflow :
    getsize 512 ['8', 'E'] = Except.ok (-9223372036854775808) ∧
    getsize 512 ['8', 'E'] ≠ Except.ok ((decimalValue ['8'] : Int) * 2 ^ (10 * 6)) := by
  decide

theorem getsize_bare_of_fits (blocksize : Int) (ds : List Char)
    (hne : ds ≠ []) (hds : ∀ c ∈ ds, isdigit c = true)
    (hlo : -(2 ^ 63) ≤ (decimalValue ds : Int) * blocksize)
    (hhi : (decimalValue ds : Int) * blocksize < 2 ^ 63) :
    getsize blocksize ds = Except.ok ((decimalValue ds : Int) * blocksize) := by
  have hst := strtoull_digits ds [] hne hds (by decide)
  rw [List.append_nil] at hst
  have hderef : deref ([] : List Char) = Char.ofNat 0 := rfl
  unfold getsize
  simp only [hst, hderef, if_true]
  apply congrArg Except.ok
  rw [wrapOff_mul_wrapOff]
  by_cases hb : blocksize = 0
  · subst hb
    simp only [mul_zero]
    rfl
  · have hN : (decimalValue ds : Int) ≤ 2 ^ 63 := by
      by_contra hcon
      push_neg at hcon
      rcases lt_or_gt_of_ne hb with hneg | hpos
      · nlinarith
      · nlinarith
    have hsmall : ¬ ULLONG_MAX < decimalValue ds := by
      unfold ULLONG_MAX
      omega
    rw [if_neg hsmall]
    exact wrapOff_of_range _ hlo hhi

/-- C2 (as amended): for every non-empty string of decimal digits denoting N, if N × blocksize
fits `off_t` then `getsize` returns N × blocksize; the string "0" gives 0. -/
theorem getsize_bare_integer (blocksize : Int) (ds : List Char)
    (hne : ds ≠ []) (hds : ∀ c ∈ ds, isdigit c = true)
    (hlo : -(2 ^ 63) ≤ (decimalValue ds : Int) * blocksize)
    (hhi : (decimalValue ds : Int) * blocksize < 2 ^ 63) :
    getsize blocksize ds = Except.ok ((decimalValue ds : Int) * blocksize) ∧
    getsize blocksize ['0'] = Except.ok 0 := by
  refine ⟨getsize_bare_of_fits blocksize ds hne hds hlo hhi, ?_⟩
  have h0 := getsize_bare_of_fits blocksize ['0'] (by decide) (by decide)
  have hv : decimalValue ['0'] = 0 := by decide
  rw [hv] at h0
  simpa using h0

theorem getsize_bare_integer_witness :
    decimalValue ['1', '2'] = 12 ∧
    getsize 512 ['1', '2'] = Except.ok ((decimalValue ['1', '2'] : Int) * 512) ∧
    getsize 512 ['0'] = Except.ok 0 :=
  ⟨by decide, getsize_bare_integer 512 ['1', '2'] (by decide) (by decide) (by decide) (by decide)⟩

/-- C2 (counterexample): with the default block size 512 the bare integer 18014398509481984
(2^54) denotes 2^63 bytes, one more than the largest `off_t`; `getsize` returns -2^63. -/
theorem getsize_bare_integer_overflow :
    decimalValue "18014398509481984".toList * 512 = 2 ^ 63 ∧
    getsize 512 "18014398509481984".toList = Except.ok (-9223372036854775808) ∧
    getsize 512 "18014398509481984".toList
      ≠ Except.ok ((decimalValue "18014398509481984".toList : Int) * 512) := by
  decide

/-- C3 (the code at the failing input): "12kx" has garbage after the unit letter, and `getsize`
returns 12 × 1024 for it; the malformed strings "12x" and "abc" named by the specification
do end the program with status 1. -/
theorem getsize_trailing_garbage :
    getsize 512 "12kx".toList = Except.ok 12288 ∧
    getsize 512 "12x".toList = Except.error 1 ∧
    getsize 512 "abc".toList = Except.error 1 := by
  decide

/-! ## The generation loop -/

theorem genLoop_steps (B L W : Int) (n : Nat) (hB : 0 ≤ B) (hW : 0 ≤ W)
    (hin : ∀ j : Nat, j < n → (j : Int) * W + B ≤ L)
    (hout : L < (n : Int) * W + B)
    (hfit : (n : Int) * W + B < 2 ^ 63) :
    ∀ (m i : Nat) (s : GenState) (fuel : Nat), i + m = n → s.offset = (i : Int) * W →
      s.optimumpsize = wrapOff ((i : Int) * B) → m < fuel →
      genLoop B L W fuel s = some
        { offset := (n : Int) * W
          optimumpsize := wrapOff ((n : Int) * B)
          offsets := s.offsets ++ (List.range' i m).map (fun (j : Nat) => (j : Int) * W) } := by
  have hmono : ∀ j : Nat, j ≤ n → (j : Int) * W ≤ (n : Int) * W := by
    intro j hj
    exact mul_le_mul_of_nonneg_right (by exact_mod_cast hj) hW
  have hnonneg : ∀ j : Nat, (0 : Int) ≤ (j : Int) * W := fun j => by positivity
  intro m
  induction m with
  | zero =>
    intro i s fuel hi hoff hopt hfuel
    obtain ⟨f, rfl⟩ : ∃ f, fuel = f + 1 := ⟨fuel - 1, by omega⟩
    have hin' : i = n := by omega
    subst hin'
    have hw : wrapOff (s.offset + B) = (i : Int) * W + B := by
      rw [hoff]
      exact wrapOff_of_range _ (by have := hnonneg i; omega) hfit
    rw [genLoop, hw, if_neg (not_le.mpr hout)]
    cases s
    simp_all
  | succ m ih =>
    intro i s fuel hi hoff hopt hfuel
    obtain ⟨f, rfl⟩ : ∃ f, fuel = f + 1 := ⟨fuel - 1, by omega⟩
    have hlt : i < n := by omega
    have h1 := hmono (i + 1) (by omega)
    have h0 := hnonneg i
    have hstep : ((i + 1 : Nat) : Int) * W = (i : Int) * W + W := by push_cast; ring
    have hw : wrapOff (s.offset + B) = (i : Int) * W + B := by
      rw [hoff]
      exact wrapOff_of_range _ (by omega) (by have := hin i hlt; have := hmono i (by omega); omega)
    have hw2 : wrapOff (s.offset + W) = ((i + 1 : Nat) : Int) * W := by
      rw [hoff, hstep]
      exact wrapOff_of_range _ (by omega) (by omega)
    have hw3 : wrapOff (s.optimumpsize + B) = wrapOff (((i + 1 : Nat) : Int) * B) := by
      rw [hopt, wrapOff_add_wrapOff]
      apply congrArg wrapOff
      push_cast
      ring
    rw [genLoop, hw, if_pos (hin i hlt), hw2, hw3]
    rw [ih (i + 1) _ f (by omega) rfl rfl (by omega)]
    simp [List.range'_succ, hoff]

theorem specOffsetCount_inside (B L W : Int) (hW : 0 < W) (j : Nat)
    (hj : j < specOffsetCount B L W) : (j : Int) * W + B ≤ L := by
  unfold specOffsetCount at hj
  split at hj
  · have hq : (j : Int) ≤ (L - B) / W := by omega
    have h1 : (j : Int) * W ≤ (L - B) / W * W := mul_le_mul_of_nonneg_right hq (le_of_lt hW)
    have h2 : (L - B) / W * W ≤ L - B := Int.ediv_mul_le _ (ne_of_gt hW)
    omega
  · omega

theorem specOffsetCount_outside (B L W : Int) (hW : 0 < W) :
    L < (specOffsetCount B L W : Int) * W + B := by
  unfold specOffsetCount
  split
  · next h =>
    have hq : (0 : Int) ≤ (L - B) / W := Int.ediv_nonneg (by omega) (le_of_lt hW)
    have h1 : L - B < ((L - B) / W + 1) * W := Int.lt_ediv_add_one_mul_self _ hW
    rw [Int.toNat_of_nonneg (by omega)]
    omega
  · simp only [Nat.cast_zero, zero_mul, zero_add]
    omega

theorem genLoop_spec (B L W : Int) (hB : 0 < B) (hW : 0 < W)
    (hfit : (specOffsetCount B L W : Int) * W + B < 2 ^ 63)
    (fuel : Nat) (hfuel : specOffsetCount B L W < fuel) :
    genLoop B L W fuel genInit = some
      { offset := (specOffsetCount B L W : Int) * W
        optimumpsize := wrapOff ((specOffsetCount B L W : Int) * B)
        offsets := (List.range (specOffsetCount B L W)).map (fun (j : Nat) => (j : Int) * W) } := by
  have h := genLoop_steps B L W (specOffsetCount B L W) (le_of_lt hB) (le_of_lt hW)
    (fun j hj => specOffsetCount_inside B L W hW j hj) (specOffsetCount_outside B L W hW) hfit
    (specOffsetCount B L W) 0 genInit fuel (by omega) (by simp [genInit])
    (by simp [genInit]; rfl) hfuel
  rw [h]
  simp [genInit, List.range_eq_range']

/-- C4 (as amended): for blockSize > 0 and writeEvery > 0, when the first multiple of
writeEvery past the bound, plus blockSize, still fits `off_t`, the generation loop stops and has
stored `floor ((logicalSize - blockSize) / writeEvery) + 1` offsets when
logicalSize >= blockSize, and none otherwise. -/
theorem genLoop_count (B L W : Int) (hB : 0 < B) (hW : 0 < W)
    (hfit : (specOffsetCount B L W : Int) * W + B < 2 ^ 63)
    (fuel : Nat) (hfuel : specOffsetCount B L W < fuel) :
    ∃ s, genLoop B L W fuel genInit = some s ∧
      s.offsets.length = (if B ≤ L then ((L - B) / W + 1).toNat else 0) := by
  refine ⟨_, genLoop_spec B L W hB hW hfit fuel hfuel, ?_⟩
  simp [specOffsetCount]

theorem genLoop_count_witness :
    specOffsetCount 512 4096 1024 = 4 ∧
    ∃ s, genLoop 512 4096 1024 5 genInit = some s ∧
      s.offsets.length = (if (512 : Int) ≤ 4096 then (((4096 : Int) - 512) / 1024 + 1).toNat else 0) :=
  ⟨by decide, genLoop_count 512 4096 1024 (by decide) (by decide) (by decide) 5 (by decide)⟩

/-- C4 (counterexample): with blockSize 512, logicalSize 6 × 2^60 ("6E") and writeEvery
5 × 2^60 ("5E") the formula gives 2 offsets, but the third value of `offset`, 10 × 2^60, does
not fit `off_t`; the loop goes on and stores 11 offsets. -/
theorem genLoop_count_overflow :
    specOffsetCount 512 (6 * 2 ^ 60) (5 * 2 ^ 60) = 2 ∧
    (genLoop 512 (6 * 2 ^ 60) (5 * 2 ^ 60) 12 genInit).map (fun s => s.offsets.length)
      = some 11 := by
  decide

/-- C5 (as amended): for blockSize > 0 and writeEvery > 0, when the first multiple of writeEvery
past the bound, plus blockSize, still fits `off_t`, the generation loop stops with the offsets
i × writeEvery in increasing order: entry i is i × writeEvery, and k × writeEvery is an entry
exactly when k × writeEvery + blockSize <= logicalSize.  For blockSize 512, logicalSize 4096
and writeEvery 1024 the sequence is 0, 1024, 2048, 3072. -/
theorem genLoop_offsets (B L W : Int) (hB : 0 < B) (hW : 0 < W)
    (hfit : (specOffsetCount B L W : Int) * W + B < 2 ^ 63)
    (fuel : Nat) (hfuel : specOffsetCount B L W < fuel) :
    (∃ s, genLoop B L W fuel genInit = some s ∧
      (∀ i : Nat, i < s.offsets.length → s.offsets[i]? = some ((i : Int) * W)) ∧
      (∀ k : Nat, k < s.offsets.length ↔ (k : Int) * W + B ≤ L) ∧
      s.offsets.Pairwise (fun a b => a < b)) ∧
    (genLoop 512 4096 1024 5 genInit).map (fun s => s.offsets) = some [0, 1024, 2048, 3072] := by
  refine ⟨⟨_, genLoop_spec B L W hB hW hfit fuel hfuel, ?_, ?_, ?_⟩, by decide⟩
  · intro i hi
    simp only [List.length_map, List.length_range] at hi
    simp [List.getElem?_map, List.getElem?_range hi]
  · intro k
    simp only [List.length_map, List.length_range]
    constructor
    · exact specOffsetCount_inside B L W hW k
    · intro hk
      by_contra hcon
      have hle : (specOffsetCount B L W : Int) ≤ (k : Int) := by exact_mod_cast (not_lt.mp hcon)
      have hmul : (specOffsetCount B L W : Int) * W ≤ (k : Int) * W :=
        mul_le_mul_of_nonneg_right hle (le_of_lt hW)
      have hout := specOffsetCount_outside B L W hW
      omega
  · apply List.Pairwise.map _ _ (List.pairwise_lt_range _)
    intro a b hab
    exact mul_lt_mul_of_pos_right (by exact_mod_cast hab) hW

theorem genLoop_offsets_witness :
    specOffsetCount 512 4096 1024 < 5 ∧
    ((∃ s, genLoop 512 4096 1024 5 genInit = some s ∧
      (∀ i : Nat, i < s.offsets.length → s.offsets[i]? = some ((i : Int) * 1024)) ∧
      (∀ k : Nat, k < s.offsets.length ↔ (k : Int) * 1024 + 512 ≤ 4096) ∧
      s.offsets.Pairwise (fun a b => a < b)) ∧
    (genLoop 512 4096 1024 5 genInit).map (fun s => s.offsets) = some [0, 1024, 2048, 3072]) :=
  ⟨by decide, genLoop_offsets 512 4096 1024 (by decide) (by decide) (by decide) 5 (by decide)⟩

/-- C5 (counterexample): with blockSize 512, logicalSize 6 × 2^60 and writeEvery 5 × 2^60 the
third value of `offset`, 10 × 2^60, does not fit `off_t`; the loop stores 11 offsets, the third
of them negative, instead of the two multiples 0 and 5 × 2^60 within the bound. -/
theorem genLoop_offsets_overflow :
    ((genLoop 512 (6 * 2 ^ 60) (5 * 2 ^ 60) 12 genInit).map (fun s => s.offsets.take 3)
      = some [0, 5 * 2 ^ 60, -(6 * 2 ^ 60)]) ∧
    ¬ ((2 : Int) * (5 * 2 ^ 60) + 512 ≤ 6 * 2 ^ 60) := by
  decide

/-! ## Reordering of the offsets -/

theorem swap_length (a : List Int) (i j : Nat) : (swap a i j).length = a.length := by
  simp [swap]

theorem swap_getElem? (a : List Int) (i j : Nat) (hi : i < a.length) (hj : j < a.length)
    (m : Nat) :
    (swap a i j)[m]? = if m = i then a[j]? else if m = j then a[i]? else a[m]? := by
  unfold swap
  simp only [List.getD_eq_getElem?_getD, List.getElem?_set, List.length_set,
    List.getElem?_eq_getElem hi, List.getElem?_eq_getElem hj, Option.getD_some]
  by_cases h1 : m = i
  · subst h1
    simp [hi]
  · by_cases h2 : m = j
    · subst h2
      simp [hj, Ne.symm h1, h1]
    · simp [h1, h2, Ne.symm h1, Ne.symm h2]

theorem swap_perm (a : List Int) (i j : Nat) (hi : i < a.length) (hj : j < a.length) :
    (swap a i j).Perm a := by
  rw [List.perm_iff_count]
  intro b
  have hi1 : i < (a.set j (a.getD i 0)).length := by simpa using hi
  have hget : (a.set j (a.getD i 0))[i] = a[i] := by
    rw [List.getElem_set]
    split
    · next h => subst h; simp [List.getD_eq_getElem?_getD, List.getElem?_eq_getElem hi]
    · rfl
  have hci := List.boole_getElem_le_count b a i hi
  have hcj := List.boole_getElem_le_count b a j hj
  unfold swap
  simp only []
  rw [List.count_set _ _ _ _ hi1, List.count_set _ _ _ _ hj, hget]
  simp only [List.getD_eq_getElem?_getD, List.getElem?_eq_getElem hi,
    List.getElem?_eq_getElem hj, Option.getD_some]
  omega

theorem reverse_loop_invariant (x : List Int) (k : Nat) (hk : k ≤ x.length / 2) :
    ((List.range k).foldl (fun a i => swap a i (x.length - 1 - i)) x).length = x.length ∧
    ∀ m : Nat, m < x.length →
      ((List.range k).foldl (fun a i => swap a i (x.length - 1 - i)) x)[m]? =
        if m < k ∨ x.length - k ≤ m then x[x.length - 1 - m]? else x[m]? := by
  induction k with
  | zero =>
    refine ⟨rfl, ?_⟩
    intro m hm
    have hno : ¬ (m < 0 ∨ x.length - 0 ≤ m) := by omega
    rw [if_neg hno]
    rfl
  | succ k ih =>
    obtain ⟨hlen, hget⟩ := ih (by omega)
    rw [List.range_succ, List.foldl_append]
    simp only [List.foldl_cons, List.foldl_nil]
    refine ⟨by rw [swap_length, hlen], ?_⟩
    intro m hm
    rw [swap_getElem? _ _ _ (by rw [hlen]; omega) (by rw [hlen]; omega)]
    by_cases h1 : m = k
    · subst h1
      rw [if_pos rfl, hget _ (by omega), if_neg (by omega), if_pos (by omega)]
    · rw [if_neg h1]
      by_cases h2 : m = x.length - 1 - k
      · rw [if_pos h2, hget _ (by omega), if_neg (by omega), if_pos (by omega)]
        congr 1
        omega
      · rw [if_neg h2, hget _ hm]
        by_cases h3 : m < k ∨ x.length - k ≤ m
        · rw [if_pos h3, if_pos (by omega)]
        · rw [if_neg h3, if_neg (by omega)]

theorem reverse_eq_reverse (x : List Int) : reverse x x.length = x.reverse := by
  unfold reverse
  split
  · next h =>
    match x, h with
    | [], _ => rfl
    | [_], _ => rfl
    | _ :: _ :: _, h => simp at h
  · obtain ⟨hlen, hget⟩ := reverse_loop_invariant x (x.length / 2) (le_refl _)
    apply List.ext_getElem?
    intro m
    by_cases hm : m < x.length
    · rw [hget m hm, List.getElem?_reverse hm]
      split
      · rfl
      · next hmid =>
        congr 1
        omega
    · rw [List.getElem?_eq_none (by omega), List.getElem?_eq_none (by simp; omega)]

/-- C6: for every offset array of length n, `reverse` produces the exact reversal: entry i of
the result is entry n - 1 - i of the input for every i < n; the descending order of the offsets
0, 1024, 2048, 3072 generated for blockSize 512, logicalSize 4096, writeEvery 1024 is
3072, 2048, 1024, 0. -/
theorem reverse_exact (offsets : List Int) :
    (reverse offsets offsets.length).length = offsets.length ∧
    (∀ i : Nat, i < offsets.length →
      (reverse offsets offsets.length)[i]? = offsets[offsets.length - 1 - i]?) ∧
    reverse offsets offsets.length = offsets.reverse ∧
    (genLoop 512 4096 1024 5 genInit).map
      (fun s => reorder 2147483647 (fun _ => 0) order_t.DESCENDING s.offsets s.offsets.length)
      = some [3072, 2048, 1024, 0] := by
  refine ⟨?_, ?_, reverse_eq_reverse offsets, by decide⟩
  · rw [reverse_eq_reverse, List.length_reverse]
  · intro i hi
    rw [reverse_eq_reverse, List.getElem?_reverse hi]

theorem shuffle_index_lt (RAND_MAX r n i : Nat) (hi : i + 1 < n) (hr : r ≤ RAND_MAX) :
    i + r / (RAND_MAX / (n - i) + 1) < n := by
  have hd : 0 < n - i := by omega
  have hmod := Nat.mod_lt RAND_MAX hd
  have hdiv := Nat.div_add_mod RAND_MAX (n - i)
  have key : r < (n - i) * (RAND_MAX / (n - i) + 1) := by
    rw [Nat.mul_add, Nat.mul_one]
    omega
  have hq : r / (RAND_MAX / (n - i) + 1) < n - i :=
    (Nat.div_lt_iff_lt_mul (Nat.succ_pos (RAND_MAX / (n - i)))).mpr key
  omega

theorem shuffle_loop_invariant (RAND_MAX : Nat) (random : Nat → Nat)
    (hrand : ∀ k, random k ≤ RAND_MAX) (x : List Int) (k : Nat) (hk : k + 1 ≤ x.length) :
    ((List.range k).foldl
      (fun a i => swap a i (i + random i / (RAND_MAX / (x.length - i) + 1))) x).length = x.length ∧
    ((List.range k).foldl
      (fun a i => swap a i (i + random i / (RAND_MAX / (x.length - i) + 1))) x).Perm x := by
  induction k with
  | zero => exact ⟨rfl, List.Perm.refl _⟩
  | succ k ih =>
    obtain ⟨hlen, hperm⟩ := ih (by omega)
    rw [List.range_succ, List.foldl_append]
    simp only [List.foldl_cons, List.foldl_nil]
    have hj := shuffle_index_lt RAND_MAX (random k) x.length k (by omega) (hrand k)
    refine ⟨by rw [swap_length, hlen], ?_⟩
    exact (swap_perm _ _ _ (by rw [hlen]; omega) (by rw [hlen]; omega)).trans hperm

theorem shuffle_perm (RAND_MAX : Nat) (random : Nat → Nat)
    (hrand : ∀ k, random k ≤ RAND_MAX) (x : List Int) :
    (shuffle RAND_MAX random x x.length).length = x.length ∧
    (shuffle RAND_MAX random x x.length).Perm x := by
  unfold shuffle
  split
  · exact ⟨rfl, List.Perm.refl _⟩
  · exact shuffle_loop_invariant RAND_MAX random hrand x (x.length - 1) (by omega)

/-- C7: under each of the three order policies the reordered offsets have the length and the
multiset of elements of the generated sequence, the results of `random ()` being any values
from 0 to RAND_MAX, and the ascending policy leaves the sequence as it is. -/
theorem reorder_perm (RAND_MAX : Nat) (random : Nat → Nat)
    (hrand : ∀ k, random k ≤ RAND_MAX) (order : order_t) (offsets : List Int) :
    (reorder RAND_MAX random order offsets offsets.length).length = offsets.length ∧
    (reorder RAND_MAX random order offsets offsets.length).Perm offsets ∧
    reorder RAND_MAX random order_t.ASCENDING offsets offsets.length = offsets := by
  refine ⟨?_, ?_, rfl⟩
  · cases order
    · rfl
    · show (reverse offsets offsets.length).length = offsets.length
      rw [reverse_eq_reverse, List.length_reverse]
    · exact (shuffle_perm RAND_MAX random hrand offsets).1
  · cases order
    · exact List.Perm.refl _
    · show (reverse offsets offsets.length).Perm offsets
      rw [reverse_eq_reverse]
      exact List.reverse_perm offsets
    · exact (shuffle_perm RAND_MAX random hrand offsets).2

theorem reorder_perm_witness :
    (∀ k, (fun (i : Nat) => 1000000000 * i % 2147483648) k ≤ 2147483647) ∧
    (reorder 2147483647 (fun i => 1000000000 * i % 2147483648) order_t.RANDOM
      [0, 1024, 2048, 3072] 4).length = 4 ∧
    (reorder 2147483647 (fun i => 1000000000 * i % 2147483648) order_t.RANDOM
      [0, 1024, 2048, 3072] 4).Perm [0, 1024, 2048, 3072] ∧
    reorder 2147483647 (fun i => 1000000000 * i % 2147483648) order_t.ASCENDING
      [0, 1024, 2048, 3072] 4 = [0, 1024, 2048, 3072] :=
  ⟨fun k => by show 1000000000 * k % 2147483648 ≤ 2147483647; omega,
   reorder_perm 2147483647 (fun i => 1000000000 * i % 2147483648)
     (fun k => by show 1000000000 * k % 2147483648 ≤ 2147483647; omega)
     order_t.RANDOM [0, 1024, 2048, 3072]⟩

/-! ## Option resolution -/

theorem resolveBlocksize_ok (w : Nat) (g g1 : Globals) (arg : Option (List Char))
    (h : resolveBlocksize w g arg = Except.ok g1) :
    g1.logicalsize = g.logicalsize ∧ g1.writeevery = g.writeevery ∧
    ((arg = none ∧ g1.blocksize = g.blocksize) ∨
     (∃ a, arg = some a ∧ getsize g.blocksize a = Except.ok g1.blocksize ∧
        0 < g1.blocksize ∧ g1.blocksize.toNat % w = 0)) := by
  unfold resolveBlocksize at h
  cases arg with
  | none =>
    simp only [pure, Except.pure, Except.ok.injEq] at h
    subst h
    exact ⟨rfl, rfl, Or.inl ⟨rfl, rfl⟩⟩
  | some a =>
    cases hg : getsize g.blocksize a with
    | error k => simp [hg, bind, Except.bind] at h
    | ok b =>
      simp only [hg, bind, Except.bind] at h
      split at h
      · simp at h
      · next hcond =>
        simp only [pure, Except.pure, Except.ok.injEq] at h
        subst h
        push_neg at hcond
        exact ⟨rfl, rfl, Or.inr ⟨a, rfl, hg, hcond.1, hcond.2⟩⟩

theorem resolveLogicalsize_ok (g g1 : Globals) (arg : Option (List Char))
    (h : resolveLogicalsize g arg = Except.ok g1) :
    g1.blocksize = g.blocksize ∧ g1.writeevery = g.writeevery ∧
    g1.blocksize ≤ g1.logicalsize ∧
    ((arg = none ∧ g1.logicalsize =
        (if g.logicalsize < wrapOff (g.blocksize * 4) then wrapOff (g.blocksize * 4)
         else g.logicalsize)) ∨
     (∃ a, arg = some a ∧ getsize g.blocksize a = Except.ok g1.logicalsize)) := by
  unfold resolveLogicalsize at h
  cases arg with
  | none =>
    by_cases hc : g.logicalsize < wrapOff (g.blocksize * 4)
    · simp only [hc, if_true, pure, Except.pure, bind, Except.bind] at h
      split at h
      · simp at h
      · next hchk =>
        simp only [Except.ok.injEq] at h
        subst h
        simp only [not_lt] at hchk
        exact ⟨rfl, rfl, hchk, Or.inl ⟨rfl, by simp [hc]⟩⟩
    · simp only [hc, if_false, pure, Except.pure, bind, Except.bind] at h
      split at h
      · simp at h
      · next hchk =>
        simp only [Except.ok.injEq] at h
        subst h
        simp only [not_lt] at hchk
        exact ⟨rfl, rfl, hchk, Or.inl ⟨rfl, by simp [hc]⟩⟩
  | some a =>
    cases hg : getsize g.blocksize a with
    | error k => simp [hg, bind, Except.bind] at h
    | ok l =>
      simp only [hg, pure, Except.pure, bind, Except.bind] at h
      split at h
      · simp at h
      · next hchk =>
        simp only [Except.ok.injEq] at h
        subst h
        simp only [not_lt] at hchk
        exact ⟨rfl, rfl, hchk, Or.inr ⟨a, rfl, hg⟩⟩

theorem resolveWriteevery_ok (g g1 : Globals) (arg : Option (List Char))
    (h : resolveWriteevery g arg = Except.ok g1) :
    g1.blocksize = g.blocksize ∧ g1.logicalsize = g.logicalsize ∧
    g1.blocksize ≤ g1.writeevery ∧
    ((arg = none ∧ g1.writeevery =
        (if g.writeevery < wrapOff (g.blocksize * 2) then wrapOff (g.blocksize * 2)
         else g.writeevery)) ∨
     (∃ a, arg = some a ∧ getsize g.blocksize a = Except.ok g1.writeevery)) := by
  unfold resolveWriteevery at h
  cases arg with
  | none =>
    by_cases hc : g.writeevery < wrapOff (g.blocksize * 2)
    · simp only [hc, if_true, pure, Except.pure, bind, Except.bind] at h
      split at h
      · simp at h
      · next hchk =>
        simp only [Except.ok.injEq] at h
        subst h
        simp only [not_lt] at hchk
        exact ⟨rfl, rfl, hchk, Or.inl ⟨rfl, by simp [hc]⟩⟩
    · simp only [hc, if_false, pure, Except.pure, bind, Except.bind] at h
      split at h
      · simp at h
      · next hchk =>
        simp only [Except.ok.injEq] at h
        subst h
        simp only [not_lt] at hchk
        exact ⟨rfl, rfl, hchk, Or.inl ⟨rfl, by simp [hc]⟩⟩
  | some a =>
    cases hg : getsize g.blocksize a with
    | error k => simp [hg, bind, Except.bind] at h
    | ok l =>
      simp only [hg, pure, Except.pure, bind, Except.bind] at h
      split at h
      · simp at h
      · next hchk =>
        simp only [Except.ok.injEq] at h
        subst h
        simp only [not_lt] at hchk
        exact ⟨rfl, rfl, hchk, Or.inr ⟨a, rfl, hg⟩⟩

theorem resolveSizes_ok (w : Nat) (g g3 : Globals) (barg sarg warg : Option (List Char))
    (h : resolveSizes w g barg sarg warg = Except.ok g3) :
    ∃ g1 g2, resolveBlocksize w g barg = Except.ok g1 ∧
      resolveLogicalsize g1 sarg = Except.ok g2 ∧ resolveWriteevery g2 warg = Except.ok g3 := by
  unfold resolveSizes at h
  cases h1 : resolveBlocksize w g barg with
  | error k => simp [h1, bind, Except.bind] at h
  | ok g1 =>
    cases h2 : resolveLogicalsize g1 sarg with
    | error k => simp [h1, h2, bind, Except.bind] at h
    | ok g2 =>
      simp only [h1, h2, bind, Except.bind] at h
      exact ⟨g1, g2, rfl, h2, h⟩

theorem resolveSizes_blocksize_pos (w : Nat) (g : Globals) (barg sarg warg : Option (List Char))
    (h : resolveSizes w initialGlobals barg sarg warg = Except.ok g) : 0 < g.blocksize := by
  obtain ⟨g1, g2, h1, h2, h3⟩ := resolveSizes_ok w _ g barg sarg warg h
  obtain ⟨-, -, hb⟩ := resolveBlocksize_ok w _ g1 barg h1
  obtain ⟨hb2, -, -, -⟩ := resolveLogicalsize_ok g1 g2 sarg h2
  obtain ⟨hb3, -, -, -⟩ := resolveWriteevery_ok g2 g warg h3
  rw [hb3, hb2]
  rcases hb with ⟨-, hb⟩ | ⟨a, -, -, hpos, -⟩
  · rw [hb]
    decide
  · exact hpos

/-- C8: whenever option resolution does not end the program, whichever of -b, -s and -w are
given, the resolved sizes satisfy blockSize > 0, blockSize a multiple of `sizeof (int)` (4 or 8),
logicalSize >= blockSize and writeEvery >= blockSize. -/
theorem resolveSizes_invariants (sizeofInt : Nat) (hw : sizeofInt = 4 ∨ sizeofInt = 8)
    (barg sarg warg : Option (List Char)) (g : Globals)
    (h : resolveSizes sizeofInt initialGlobals barg sarg warg = Except.ok g) :
    0 < g.blocksize ∧ g.blocksize % (sizeofInt : Int) = 0 ∧
    g.blocksize ≤ g.logicalsize ∧ g.blocksize ≤ g.writeevery := by
  have hpos := resolveSizes_blocksize_pos sizeofInt g barg sarg warg h
  obtain ⟨g1, g2, h1, h2, h3⟩ := resolveSizes_ok sizeofInt _ g barg sarg warg h
  obtain ⟨-, -, hb⟩ := resolveBlocksize_ok sizeofInt _ g1 barg h1
  obtain ⟨hb2, -, hl2, -⟩ := resolveLogicalsize_ok g1 g2 sarg h2
  obtain ⟨hb3, hl3, hw3, -⟩ := resolveWriteevery_ok g2 g warg h3
  refine ⟨hpos, ?_, ?_, hw3⟩
  · rw [hb3, hb2]
    rcases hb with ⟨-, hb⟩ | ⟨a, -, -, hp, hmod⟩
    · rw [hb]
      rcases hw with rfl | rfl <;> decide
    · rcases hw with rfl | rfl <;> omega
  · rw [hb3, hl3]
    exact hl2

theorem resolveSizes_invariants_witness :
    resolveSizes 4 initialGlobals (some "1024B".toList) (some "10".toList) (some "2K".toList)
      = Except.ok
        { blocksize := 1024, logicalsize := 10240, writeevery := 2048,
          order := order_t.ASCENDING, initialtruncate := false } ∧
    (0 : Int) < 1024 ∧ (1024 : Int) % ((4 : Nat) : Int) = 0 ∧
    (1024 : Int) ≤ 10240 ∧ (1024 : Int) ≤ 2048 :=
  ⟨by decide, resolveSizes_invariants 4 (Or.inl rfl) (some "1024B".toList) (some "10".toList)
    (some "2K".toList)
    { blocksize := 1024, logicalsize := 10240, writeevery := 2048,
      order := order_t.ASCENDING, initialtruncate := false } (by decide)⟩

/-- C9 (as amended): when resolution succeeds, a bare integer N given as the block size with
N × 512 fitting `off_t` resolves to N × 512, and a bare integer M given as the logical size or
as the write stride with M × blockSize fitting `off_t` resolves to M × the resolved block size;
"1024" as block size gives 524288 and "1024B" gives 1024; "10" as logical size with block size
"1024B" gives 10240; "10K" is 10240 under every block size. -/
theorem resolveSizes_bare_units (sizeofInt : Nat) (barg sarg warg : Option (List Char))
    (g : Globals) (h : resolveSizes sizeofInt initialGlobals barg sarg warg = Except.ok g) :
    (∀ ds : List Char, ds ≠ [] → (∀ c ∈ ds, isdigit c = true) → barg = some ds →
      (decimalValue ds : Int) * 512 < 2 ^ 63 → g.blocksize = (decimalValue ds : Int) * 512) ∧
    (∀ ds : List Char, ds ≠ [] → (∀ c ∈ ds, isdigit c = true) → sarg = some ds →
      (decimalValue ds : Int) * g.blocksize < 2 ^ 63 →
      g.logicalsize = (decimalValue ds : Int) * g.blocksize) ∧
    (∀ ds : List Char, ds ≠ [] → (∀ c ∈ ds, isdigit c = true) → warg = some ds →
      (decimalValue ds : Int) * g.blocksize < 2 ^ 63 →
      g.writeevery = (decimalValue ds : Int) * g.blocksize) ∧
    (resolveSizes 4 initialGlobals (some "1024".toList) none none).map (fun r => r.blocksize)
      = Except.ok 524288 ∧
    (resolveSizes 4 initialGlobals (some "1024B".toList) (some "10".toList) none).map
      (fun r => (r.blocksize, r.logicalsize)) = Except.ok (1024, 10240) ∧
    (∀ blocksize : Int, getsize blocksize "10K".toList = Except.ok 10240) := by
  have hpos := resolveSizes_blocksize_pos sizeofInt g barg sarg warg h
  obtain ⟨g1, g2, h1, h2, h3⟩ := resolveSizes_ok sizeofInt _ g barg sarg warg h
  obtain ⟨-, -, hb⟩ := resolveBlocksize_ok sizeofInt _ g1 barg h1
  obtain ⟨hb2, -, -, hl⟩ := resolveLogicalsize_ok g1 g2 sarg h2
  obtain ⟨hb3, hl3, -, hwe⟩ := resolveWriteevery_ok g2 g warg h3
  have hg1 : g1.blocksize = g.blocksize := by rw [hb3, hb2]
  refine ⟨?_, ?_, ?_, by decide, by decide, ?_⟩
  · intro ds hne hds harg hfit
    rcases hb with ⟨hnone, -⟩ | ⟨a, ha, hget, -, -⟩
    · rw [hnone] at harg
      exact absurd harg (by simp)
    · rw [ha] at harg
      obtain rfl : a = ds := Option.some.inj harg
      have hval := getsize_bare_of_fits 512 a hne hds
        (by have : (0 : Int) ≤ (decimalValue a : Int) * 512 := by positivity
            omega) hfit
      have h512 : initialGlobals.blocksize = 512 := rfl
      rw [h512, hval] at hget
      rw [← hg1]
      exact (Except.ok.inj hget).symm
  · intro ds hne hds harg hfit
    rcases hl with ⟨hnone, -⟩ | ⟨a, ha, hget⟩
    · rw [hnone] at harg
      exact absurd harg (by simp)
    · rw [ha] at harg
      obtain rfl : a = ds := Option.some.inj harg
      rw [hg1] at hget
      have hval := getsize_bare_of_fits g.blocksize a hne hds
        (by have : (0 : Int) ≤ (decimalValue a : Int) * g.blocksize :=
              mul_nonneg (by positivity) (le_of_lt hpos)
            omega) hfit
      rw [hval] at hget
      rw [hl3]
      exact (Except.ok.inj hget).symm
  · intro ds hne hds harg hfit
    rcases hwe with ⟨hnone, -⟩ | ⟨a, ha, hget⟩
    · rw [hnone] at harg
      exact absurd harg (by simp)
    · rw [ha] at harg
      obtain rfl : a = ds := Option.some.inj harg
      have hg2 : g2.blocksize = g.blocksize := hb3.symm
      rw [hg2] at hget
      have hval := getsize_bare_of_fits g.blocksize a hne hds
        (by have : (0 : Int) ≤ (decimalValue a : Int) * g.blocksize :=
              mul_nonneg (by positivity) (le_of_lt hpos)
            omega) hfit
      rw [hval] at hget
      exact (Except.ok.inj hget).symm
  · intro blocksize
    have hv : decimalValue ['1', '0'] = 10 := by decide
    have hk := getsize_digits_suffix blocksize ['1', '0'] 'K' 1 (by decide) (by decide)
      (by decide) (by decide) (by decide) (by decide)
    rw [hv] at hk
    exact hk

theorem resolveSizes_bare_units_witness :
    resolveSizes 4 initialGlobals (some ['2']) (some ['1', '0']) (some ['3']) = Except.ok
      { blocksize := 1024, logicalsize := 10240, writeevery := 3072,
        order := order_t.ASCENDING, initialtruncate := false } ∧
    (1024 : Int) = (decimalValue ['2'] : Int) * 512 ∧
    (10240 : Int) = (decimalValue ['1', '0'] : Int) * 1024 ∧
    (3072 : Int) = (decimalValue ['3'] : Int) * 1024 :=
  have h := resolveSizes_bare_units 4 (some ['2']) (some ['1', '0']) (some ['3'])
    { blocksize := 1024, logicalsize := 10240, writeevery := 3072,
      order := order_t.ASCENDING, initialtruncate := false } (by decide)
  ⟨by decide, h.1 ['2'] (by decide) (by decide) rfl (by decide),
   h.2.1 ['1', '0'] (by decide) (by decide) rfl (by decide),
   h.2.2.1 ['3'] (by decide) (by decide) rfl (by decide)⟩

/-- C9 (counterexample): the bare integer 36028797018963969 (2^55 + 1) given as the block size
denotes 2^64 + 512 bytes, which does not fit `off_t`; resolution succeeds with blocksize 512. -/
theorem resolveSizes_bare_blocksize_overflow :
    resolveSizes 4 initialGlobals (some "36028797018963969".toList) none none = Except.ok
      { blocksize := 512, logicalsize := 1073741824, writeevery := 1048576,
        order := order_t.ASCENDING, initialtruncate := false } ∧
    (512 : Int) ≠ (decimalValue "36028797018963969".toList : Int) * 512 := by
  decide

/-- C10 (as amended): when no logical size argument is given and resolution succeeds with
4 × blockSize fitting `off_t`, the resolved logicalSize is the larger of 2^30 and
4 × blockSize. -/
theorem resolveSizes_default_logicalsize (sizeofInt : Nat) (barg warg : Option (List Char))
    (g : Globals) (h : resolveSizes sizeofInt initialGlobals barg none warg = Except.ok g)
    (hfit : 4 * g.blocksize < 2 ^ 63) :
    g.logicalsize = max (2 ^ 30) (4 * g.blocksize) := by
  have hpos := resolveSizes_blocksize_pos sizeofInt g barg none warg h
  obtain ⟨g1, g2, h1, h2, h3⟩ := resolveSizes_ok sizeofInt _ g barg none warg h
  obtain ⟨hl1, -, -⟩ := resolveBlocksize_ok sizeofInt _ g1 barg h1
  obtain ⟨hb2, -, -, hl⟩ := resolveLogicalsize_ok g1 g2 none h2
  obtain ⟨hb3, hl3, -, -⟩ := resolveWriteevery_ok g2 g warg h3
  have hg1 : g1.blocksize = g.blocksize := by rw [hb3, hb2]
  have hinit : initialGlobals.logicalsize = 2 ^ 30 := by decide
  rcases hl with ⟨-, hval⟩ | ⟨a, ha, -⟩
  · rw [hl1, hinit, hg1, wrapOff_of_range (g.blocksize * 4) (by omega) (by omega)] at hval
    rw [hl3, hval]
    split
    · rw [max_eq_right (by omega)]
      ring
    · rw [max_eq_left (by omega)]
  · exact absurd ha (by simp)

theorem resolveSizes_default_logicalsize_witness :
    resolveSizes 4 initialGlobals (some "512M".toList) none none = Except.ok
      { blocksize := 536870912, logicalsize := 2147483648, writeevery := 1073741824,
        order := order_t.ASCENDING, initialtruncate := false } ∧
    (2147483648 : Int) = max (2 ^ 30) (4 * 536870912) :=
  ⟨by decide, resolveSizes_default_logicalsize 4 (some "512M".toList) none
    { blocksize := 536870912, logicalsize := 2147483648, writeevery := 1073741824,
      order := order_t.ASCENDING, initialtruncate := false } (by decide) (by decide)⟩

/-- C10 (counterexample): with -b 5632P (11 × 2^59 bytes) and -w 6E the block size is accepted
and resolution succeeds, but 4 × blockSize = 22 × 2^60 does not fit `off_t`; the resolved
logicalSize is 6 × 2^60. -/
theorem resolveSizes_default_logicalsize_overflow :
    resolveSizes 4 initialGlobals (some "5632P".toList) none (some "6E".toList) = Except.ok
      { blocksize := 11 * 2 ^ 59, logicalsize := 6 * 2 ^ 60, writeevery := 6 * 2 ^ 60,
        order := order_t.ASCENDING, initialtruncate := false } ∧
    (6 * 2 ^ 60 : Int) ≠ max (2 ^ 30) (4 * (11 * 2 ^ 59)) := by
  decide

theorem getsize_range (blocksize : Int) (arg : List Char) (v : Int)
    (h : getsize blocksize arg = Except.ok v) : -(2 ^ 63) ≤ v ∧ v < 2 ^ 63 := by
  unfold getsize at h
  simp only [] at h
  split at h
  · rw [← Except.ok.inj h]
    exact wrapOff_range _
  · split at h
    · rw [← Except.ok.inj h]
      exact wrapOff_range _
    · exact absurd h (by simp)

theorem resolveSizes_blocksize_lt (w : Nat) (g : Globals) (barg sarg warg : Option (List Char))
    (h : resolveSizes w initialGlobals barg sarg warg = Except.ok g) : g.blocksize < 2 ^ 63 := by
  obtain ⟨g1, g2, h1, h2, h3⟩ := resolveSizes_ok w _ g barg sarg warg h
  obtain ⟨-, -, hb⟩ := resolveBlocksize_ok w _ g1 barg h1
  obtain ⟨hb2, -, -, -⟩ := resolveLogicalsize_ok g1 g2 sarg h2
  obtain ⟨hb3, -, -, -⟩ := resolveWriteevery_ok g2 g warg h3
  rw [hb3, hb2]
  rcases hb with ⟨-, hb⟩ | ⟨a, -, hget, -, -⟩
  · rw [hb]
    decide
  · exact (getsize_range _ _ _ hget).2

/-- C11: when no write-every argument is given and resolution succeeds, the resolved writeEvery
is the larger of 2^20 and 2 × blockSize (a block size whose double does not fit `off_t` is
rejected by the write-every check). -/
theorem resolveSizes_default_writeevery (sizeofInt : Nat) (barg sarg : Option (List Char))
    (g : Globals) (h : resolveSizes sizeofInt initialGlobals barg sarg none = Except.ok g) :
    g.writeevery = max (2 ^ 20) (2 * g.blocksize) := by
  have hpos := resolveSizes_blocksize_pos sizeofInt g barg sarg none h
  have hlt := resolveSizes_blocksize_lt sizeofInt g barg sarg none h
  obtain ⟨g1, g2, h1, h2, h3⟩ := resolveSizes_ok sizeofInt _ g barg sarg none h
  obtain ⟨-, hw1, -⟩ := resolveBlocksize_ok sizeofInt _ g1 barg h1
  obtain ⟨-, hw2, -, -⟩ := resolveLogicalsize_ok g1 g2 sarg h2
  obtain ⟨hb3, -, hchk, hwe⟩ := resolveWriteevery_ok g2 g none h3
  have hinit : initialGlobals.writeevery = 2 ^ 20 := by decide
  rcases hwe with ⟨-, hval⟩ | ⟨a, ha, -⟩
  · rw [hw2, hw1, hinit, ← hb3] at hval
    rw [hval] at hchk ⊢
    unfold wrapOff at hchk ⊢
    split
    · rw [max_eq_right (by omega)]
      omega
    · rw [max_eq_left (by omega)]
  · exact absurd ha (by simp)

theorem resolveSizes_default_writeevery_witness :
    resolveSizes 4 initialGlobals (some "1M".toList) none none = Except.ok
      { blocksize := 1048576, logicalsize := 1073741824, writeevery := 2097152,
        order := order_t.ASCENDING, initialtruncate := false } ∧
    (2097152 : Int) = max (2 ^ 20) (2 * 1048576) :=
  ⟨by decide, resolveSizes_default_writeevery 4 (some "1M".toList) none
    { blocksize := 1048576, logicalsize := 1073741824, writeevery := 2097152,
      order := order_t.ASCENDING, initialtruncate := false } (by decide)⟩

theorem resolveLogicalsize_explicit (g : Globals) (a : List Char) (v : Int)
    (hv : getsize g.blocksize a = Except.ok v) :
    resolveLogicalsize g (some a) =
      if v < g.blocksize then Except.error 1 else Except.ok { g with logicalsize := v } := by
  unfold resolveLogicalsize
  simp only [hv, bind, Except.bind, pure, Except.pure]

theorem resolveWriteevery_explicit (g : Globals) (a : List Char) (v : Int)
    (hv : getsize g.blocksize a = Except.ok v) :
    resolveWriteevery g (some a) =
      if v < g.blocksize then Except.error 1 else Except.ok { g with writeevery := v } := by
  unfold resolveWriteevery
  simp only [hv, bind, Except.bind, pure, Except.pure]

/-- C12: a logical size (a write stride) given explicitly that parses to v ends resolution at
its check with exit status 1 exactly when v < blockSize; otherwise v is stored unchanged, the
floor of 4 × blockSize (2 × blockSize) not being applied, and resolution goes on from there. -/
theorem explicit_size_check (g : Globals) (a : List Char) (v : Int)
    (hv : getsize g.blocksize a = Except.ok v) :
    (resolveLogicalsize g (some a) = Except.error 1 ↔ v < g.blocksize) ∧
    (¬ v < g.blocksize → resolveLogicalsize g (some a) = Except.ok { g with logicalsize := v }) ∧
    (resolveWriteevery g (some a) = Except.error 1 ↔ v < g.blocksize) ∧
    (¬ v < g.blocksize → resolveWriteevery g (some a) = Except.ok { g with writeevery := v }) ∧
    (∀ (sizeofInt : Nat) (g0 : Globals) (barg warg : Option (List Char)),
      resolveBlocksize sizeofInt g0 barg = Except.ok g →
      resolveSizes sizeofInt g0 barg (some a) warg =
        if v < g.blocksize then Except.error 1
        else resolveWriteevery { g with logicalsize := v } warg) ∧
    (∀ (sizeofInt : Nat) (g0 g1 : Globals) (barg sarg : Option (List Char)),
      resolveBlocksize sizeofInt g0 barg = Except.ok g1 →
      resolveLogicalsize g1 sarg = Except.ok g →
      resolveSizes sizeofInt g0 barg sarg (some a) =
        if v < g.blocksize then Except.error 1 else Except.ok { g with writeevery := v }) := by
  have hl := resolveLogicalsize_explicit g a v hv
  have hw := resolveWriteevery_explicit g a v hv
  refine ⟨?_, ?_, ?_, ?_, ?_, ?_⟩
  · rw [hl]
    by_cases hc : v < g.blocksize <;> simp [hc]
  · intro hc
    rw [hl, if_neg hc]
  · rw [hw]
    by_cases hc : v < g.blocksize <;> simp [hc]
  · intro hc
    rw [hw, if_neg hc]
  · intro sizeofInt g0 barg warg hb
    unfold resolveSizes
    simp only [hb, hl, bind, Except.bind]
    by_cases hc : v < g.blocksize <;> simp [hc]
  · intro sizeofInt g0 g1 barg sarg hb hs
    unfold resolveSizes
    simp only [hb, hs, hw, bind, Except.bind]

theorem explicit_size_check_witness :
    getsize initialGlobals.blocksize "1K".toList = Except.ok 1024 ∧
    resolveLogicalsize initialGlobals (some "1K".toList)
      = Except.ok { initialGlobals with logicalsize := 1024 } ∧
    resolveWriteevery initialGlobals (some "1K".toList)
      = Except.ok { initialGlobals with writeevery := 1024 } :=
  have h := explicit_size_check initialGlobals "1K".toList 1024 (by decide)
  ⟨by decide, h.2.1 (by decide), h.2.2.2.1 (by decide)⟩

/-! ## The optimum physical size and the allocation of `offsets` -/

theorem specOffsetCount_mul_le (B L W : Int) (hW : B ≤ W) :
    (specOffsetCount B L W : Int) * B ≤ (specOffsetCount B L W : Int) * W :=
  mul_le_mul_of_nonneg_left hW (by positivity)

theorem specOffsetCount_le_allocated (B L W : Int) (hB : 4 ≤ B) (hW : B ≤ W) (hL : B ≤ L)
    (hL63 : L < 2 ^ 63) :
    (specOffsetCount B L W : Int) ≤ L / W + 1 ∧
    (specOffsetCount B L W : Int) < offsetsAllocated L W := by
  have hWpos : 0 < W := by omega
  have hq : (0 : Int) ≤ (L - B) / W := Int.ediv_nonneg (by omega) (le_of_lt hWpos)
  have hle : (L - B) / W ≤ L / W := Int.ediv_le_ediv hWpos (by omega)
  have hdiv : L.tdiv W = L / W := Int.tdiv_eq_ediv (by omega) (le_of_lt hWpos)
  have hq2 : (0 : Int) ≤ L / W := le_trans hq hle
  have hmul : L / W * W ≤ L := Int.ediv_mul_le _ (ne_of_gt hWpos)
  have hfour : L / W * 4 ≤ L / W * W := mul_le_mul_of_nonneg_left (by omega) hq2
  have hcount : (specOffsetCount B L W : Int) = (L - B) / W + 1 := by
    unfold specOffsetCount
    rw [if_pos hL, Int.toNat_of_nonneg (by omega)]
  have halloc : offsetsAllocated L W = L / W + 2 := by
    unfold offsetsAllocated
    rw [hdiv]
    exact wrapOff_of_range _ (by omega) (by omega)
  rw [halloc, hcount]
  constructor <;> omega

/-- C19 (the code at the failing input): with blockSize 512, logicalSize 6 × 2^60 ("6E") and
writeEvery 5 × 2^60 ("5E") `main` allocates 3 entries for `offsets` and the generation loop
stores 11.  As long as the first multiple of writeEvery past the bound, plus blockSize, fits
`off_t` (blockSize at least 4, as every accepted block size is), the number of stored offsets
is at most logicalSize / writeEvery + 1 and less than the number of entries allocated. -/
theorem genLoop_stores_past_allocation :
    offsetsAllocated (6 * 2 ^ 60) (5 * 2 ^ 60) = 3 ∧
    (genLoop 512 (6 * 2 ^ 60) (5 * 2 ^ 60) 12 genInit).map (fun s => s.offsets.length)
      = some 11 ∧
    (∀ (B L W : Int) (fuel : Nat), 4 ≤ B → B ≤ W → B ≤ L → L < 2 ^ 63 →
      (specOffsetCount B L W : Int) * W + B < 2 ^ 63 → specOffsetCount B L W < fuel →
      ∃ s, genLoop B L W fuel genInit = some s ∧
        (s.offsets.length : Int) ≤ L / W + 1 ∧
        (s.offsets.length : Int) < offsetsAllocated L W) := by
  refine ⟨by decide, by decide, ?_⟩
  intro B L W fuel hB hW hL hL63 hfit hfuel
  refine ⟨_, genLoop_spec B L W (by omega) (by omega) hfit fuel hfuel, ?_⟩
  simp only [List.length_map, List.length_range]
  exact specOffsetCount_le_allocated B L W hB hW hL hL63

/-! ## The writes -/

theorem reorder_perm_aux (RAND_MAX : Nat) (random : Nat → Nat)
    (hrand : ∀ k, random k ≤ RAND_MAX) (order : order_t) (offsets : List Int) :
    (reorder RAND_MAX random order offsets offsets.length).Perm offsets := by
  cases order
  · exact List.Perm.refl _
  · show (reverse offsets offsets.length).Perm offsets
    rw [reverse_eq_reverse]
    exact List.reverse_perm offsets
  · exact (shuffle_perm RAND_MAX random hrand offsets).2

theorem genLoop_spec_mem (B L W : Int) (hW : 0 < W) (offset : Int)
    (h : offset ∈ (List.range (specOffsetCount B L W)).map (fun (j : Nat) => (j : Int) * W)) :
    0 ≤ offset ∧ offset + B ≤ L := by
  obtain ⟨j, hj, rfl⟩ := List.mem_map.mp h
  rw [List.mem_range] at hj
  exact ⟨by positivity, specOffsetCount_inside B L W hW j hj⟩

theorem foldl_pwriteLength_eq (B : Int) (offsets : List Int) (length : Int)
    (h : ∀ offset ∈ offsets, offset + B ≤ length) :
    offsets.foldl (fun len offset => pwriteLength len B offset) length = length := by
  induction offsets with
  | nil => rfl
  | cons a t ih =>
    have ha : pwriteLength length B a = length := by
      unfold pwriteLength
      exact max_eq_left (h a (List.mem_cons_self a t))
    rw [List.foldl_cons, ha]
    exact ih (fun offset ho => h offset (List.mem_cons_of_mem a ho))

/-- C15 (as amended): for blockSize > 0 and writeEvery > 0, when the first multiple of
writeEvery past the bound, plus blockSize, still fits `off_t`, under every order policy each
write of the write loop covers a range from offset to offset + blockSize with 0 <= offset and
offset + blockSize <= logicalSize, and in the file model where a write extends the file only
when it ends past its length the final length is logicalSize, with the truncation before the
writes as with the truncation after them. -/
theorem writes_within_file (B L W : Int) (hB : 0 < B) (hW : 0 < W)
    (hfit : (specOffsetCount B L W : Int) * W + B < 2 ^ 63)
    (fuel : Nat) (hfuel : specOffsetCount B L W < fuel)
    (RAND_MAX : Nat) (random : Nat → Nat) (hrand : ∀ k, random k ≤ RAND_MAX)
    (order : order_t) :
    ∃ s, genLoop B L W fuel genInit = some s ∧
      (∀ offset ∈ reorder RAND_MAX random order s.offsets s.offsets.length,
        0 ≤ offset ∧ offset + B ≤ L) ∧
      (∀ initialtruncate : Bool,
        writePhase initialtruncate B L
          (reorder RAND_MAX random order s.offsets s.offsets.length) = L) := by
  refine ⟨_, genLoop_spec B L W hB hW hfit fuel hfuel, ?_⟩
  have hmem : ∀ offset ∈ reorder RAND_MAX random order
      ((List.range (specOffsetCount B L W)).map (fun (j : Nat) => (j : Int) * W))
      ((List.range (specOffsetCount B L W)).map (fun (j : Nat) => (j : Int) * W)).length,
      0 ≤ offset ∧ offset + B ≤ L := by
    intro offset ho
    exact genLoop_spec_mem B L W hW offset
      ((reorder_perm_aux RAND_MAX random hrand order _).mem_iff.mp ho)
  refine ⟨hmem, ?_⟩
  intro initialtruncate
  cases initialtruncate
  · rfl
  · show List.foldl (fun len offset => pwriteLength len B offset) L _ = L
    exact foldl_pwriteLength_eq B _ L (fun offset ho => (hmem offset ho).2)

theorem writes_within_file_witness :
    (∀ k, (fun (i : Nat) => 1000000000 * i % 2147483648) k ≤ 2147483647) ∧
    ∃ s, genLoop 512 4096 1024 5 genInit = some s ∧
      (∀ offset ∈ reorder 2147483647 (fun i => 1000000000 * i % 2147483648) order_t.RANDOM
          s.offsets s.offsets.length, 0 ≤ offset ∧ offset + 512 ≤ 4096) ∧
      (∀ initialtruncate : Bool,
        writePhase initialtruncate 512 4096
          (reorder 2147483647 (fun i => 1000000000 * i % 2147483648) order_t.RANDOM
            s.offsets s.offsets.length) = 4096) :=
  ⟨fun k => by show 1000000000 * k % 2147483648 ≤ 2147483647; omega,
   writes_within_file 512 4096 1024 (by decide) (by decide) (by decide) 5 (by decide)
     2147483647 (fun i => 1000000000 * i % 2147483648)
     (fun k => by show 1000000000 * k % 2147483648 ≤ 2147483647; omega) order_t.RANDOM⟩

/-- C15 (counterexample): blockSize 512, logicalSize 6 × 2^60 ("6E") and writeEvery 5 × 2^60
("5E") are a valid configuration; the third value of `offset` does not fit `off_t`, and the
third write of the ascending order is at the offset -6 × 2^60, below 0. -/
theorem writes_negative_offset :
    (genLoop 512 (6 * 2 ^ 60) (5 * 2 ^ 60) 12 genInit).map
      (fun s => (reorder 2147483647 (fun _ => 0) order_t.ASCENDING
        s.offsets s.offsets.length)[2]?) = some (some (-(6 * 2 ^ 60))) ∧
    ¬ ((0 : Int) ≤ -(6 * 2 ^ 60)) := by
  decide

theorem mem_writtenBytes (B : Int) (offsets : List Int) (x : Int) :
    x ∈ writtenBytes B offsets ↔ ∃ offset ∈ offsets, offset ≤ x ∧ x < offset + B := by
  induction offsets with
  | nil => simp [writtenBytes]
  | cons a t ih =>
    have hcons : writtenBytes B (a :: t) = Finset.Ico a (a + B) ∪ writtenBytes B t := rfl
    rw [hcons, Finset.mem_union, ih, Finset.mem_Ico]
    simp only [List.mem_cons, exists_eq_or_imp]

theorem card_writtenBytes (B : Int) (offsets : List Int)
    (h : offsets.Pairwise (fun a b => a + B ≤ b ∨ b + B ≤ a)) :
    (writtenBytes B offsets).card = offsets.length * B.toNat := by
  induction offsets with
  | nil => simp [writtenBytes]
  | cons a t ih =>
    rw [List.pairwise_cons] at h
    have hcons : writtenBytes B (a :: t) = Finset.Ico a (a + B) ∪ writtenBytes B t := rfl
    have hdisj : Disjoint (Finset.Ico a (a + B)) (writtenBytes B t) := by
      rw [Finset.disjoint_left]
      intro x hx hxt
      rw [Finset.mem_Ico] at hx
      obtain ⟨b, hb, hb1, hb2⟩ := (mem_writtenBytes B t x).mp hxt
      rcases h.1 b hb with hab | hba <;> omega
    rw [hcons, Finset.card_union_of_disjoint hdisj, ih h.2, Int.card_Ico, List.length_cons]
    have hsub : a + B - a = B := by ring
    rw [hsub]
    ring

theorem pairwise_multiples_disjoint (B W : Int) (hB : 0 < B) (hW : B ≤ W) (n : Nat) :
    ((List.range n).map (fun (j : Nat) => (j : Int) * W)).Pairwise
      (fun a b => a + B ≤ b ∨ b + B ≤ a) := by
  apply List.Pairwise.map _ _ (List.pairwise_lt_range n)
  intro i j hij
  left
  have hstep : ((i : Int) + 1) * W ≤ (j : Int) * W :=
    mul_le_mul_of_nonneg_right (by exact_mod_cast hij) (by omega)
  have hexp : ((i : Int) + 1) * W = (i : Int) * W + W := by ring
  omega

/-- C20 (as amended): for blockSize > 0 and writeEvery >= blockSize, when the first multiple of
writeEvery past the bound, plus blockSize, still fits `off_t`, under every order policy the
byte ranges from offset to offset + blockSize of any two of the offsets written are disjoint,
and the number of bytes written is count × blockSize, the optimum physical size. -/
theorem writes_disjoint (B L W : Int) (hB : 0 < B) (hW : B ≤ W)
    (hfit : (specOffsetCount B L W : Int) * W + B < 2 ^ 63)
    (fuel : Nat) (hfuel : specOffsetCount B L W < fuel)
    (RAND_MAX : Nat) (random : Nat → Nat) (hrand : ∀ k, random k ≤ RAND_MAX)
    (order : order_t) :
    ∃ s, genLoop B L W fuel genInit = some s ∧
      (reorder RAND_MAX random order s.offsets s.offsets.length).Pairwise
        (fun a b => a + B ≤ b ∨ b + B ≤ a) ∧
      ((writtenBytes B (reorder RAND_MAX random order s.offsets s.offsets.length)).card : Int)
        = (s.offsets.length : Int) * B ∧
      (s.offsets.length : Int) * B = s.optimumpsize := by
  have hWpos : 0 < W := lt_of_lt_of_le hB hW
  refine ⟨_, genLoop_spec B L W hB hWpos hfit fuel hfuel, ?_⟩
  have hperm := reorder_perm_aux RAND_MAX random hrand order
    ((List.range (specOffsetCount B L W)).map (fun (j : Nat) => (j : Int) * W))
  have hpw : (reorder RAND_MAX random order
      ((List.range (specOffsetCount B L W)).map (fun (j : Nat) => (j : Int) * W))
      ((List.range (specOffsetCount B L W)).map (fun (j : Nat) => (j : Int) * W)).length).Pairwise
      (fun a b => a + B ≤ b ∨ b + B ≤ a) :=
    (hperm.pairwise_iff (fun hxy => Or.symm hxy)).mpr
      (pairwise_multiples_disjoint B W hB hW _)
  refine ⟨hpw, ?_, ?_⟩
  · rw [card_writtenBytes B _ hpw, hperm.length_eq]
    push_cast
    rw [Int.toNat_of_nonneg (le_of_lt hB)]
  · simp only [List.length_map, List.length_range]
    have hle := specOffsetCount_mul_le B L W hW
    have hnn : (0 : Int) ≤ (specOffsetCount B L W : Int) * B := by positivity
    exact (wrapOff_of_range _ (by omega) (by omega)).symm

theorem writes_disjoint_witness :
    (∀ k, (fun (i : Nat) => 1000000000 * i % 2147483648) k ≤ 2147483647) ∧
    ∃ s, genLoop 512 4096 1024 5 genInit = some s ∧
      (reorder 2147483647 (fun i => 1000000000 * i % 2147483648) order_t.RANDOM
        s.offsets s.offsets.length).Pairwise (fun a b => a + 512 ≤ b ∨ b + 512 ≤ a) ∧
      ((writtenBytes 512 (reorder 2147483647 (fun i => 1000000000 * i % 2147483648)
        order_t.RANDOM s.offsets s.offsets.length)).card : Int)
        = (s.offsets.length : Int) * 512 ∧
      (s.offsets.length : Int) * 512 = s.optimumpsize :=
  ⟨fun k => by show 1000000000 * k % 2147483648 ≤ 2147483647; omega,
   writes_disjoint 512 4096 1024 (by decide) (by decide) (by decide) 5 (by decide)
     2147483647 (fun i => 1000000000 * i % 2147483648)
     (fun k => by show 1000000000 * k % 2147483648 ≤ 2147483647; omega) order_t.RANDOM⟩

/-- C20 (counterexample): blockSize 1024 ("1024B"), logicalSize 2^62 ("4E") and writeEvery
2^63 - 256 ("9223372036854775552B") satisfy writeEvery >= blockSize > 0; twice writeEvery does
not fit `off_t`, the loop stores the offsets 0, 2^63 - 256, -512, 2^63 - 768, -1024, and the
ranges of the first and the third, from 0 to 1024 and from -512 to 512, overlap. -/
theorem writes_overlap :
    (genLoop 1024 (2 ^ 62) (2 ^ 63 - 256) 6 genInit).map (fun s => s.offsets)
      = some [0, 2 ^ 63 - 256, -512, 2 ^ 63 - 768, -1024] ∧
    ¬ ((0 : Int) + 1024 ≤ -512 ∨ (-512 : Int) + 1024 ≤ 0) := by
  decide

/-! ## The index arithmetic of `shuffle` -/

/-- C18: for every n >= 2, every step i < n - 1 and every result r of `random ()` with
r <= RAND_MAX, the index j = i + r / (RAND_MAX / (n - i) + 1) that `shuffle` computes satisfies
i <= j < n, and these are the only indices at which `shuffle` reads or writes `offsets`. -/
theorem shuffleIndex_in_range (RAND_MAX n i r : Nat) (hn : 2 ≤ n) (hi : i < n - 1)
    (hr : r ≤ RAND_MAX) :
    i ≤ shuffleIndex RAND_MAX n i r ∧ shuffleIndex RAND_MAX n i r < n ∧
    (∀ (random : Nat → Nat) (offsets : List Int),
      shuffle RAND_MAX random offsets n =
        (List.range (n - 1)).foldl
          (fun a k => swap a k (shuffleIndex RAND_MAX n k (random k))) offsets) := by
  refine ⟨Nat.le_add_right _ _, shuffle_index_lt RAND_MAX r n i (by omega) hr, ?_⟩
  intro random offsets
  unfold shuffle
  rw [if_neg (by omega)]
  rfl

theorem shuffleIndex_in_range_witness :
    (2 : Nat) ≤ 4 ∧
    (2 : Nat) ≤ shuffleIndex 2147483647 4 2 2147483647 ∧
    shuffleIndex 2147483647 4 2 2147483647 < 4 ∧
    (∀ (random : Nat → Nat) (offsets : List Int),
      shuffle 2147483647 random offsets 4 =
        (List.range (4 - 1)).foldl
          (fun a k => swap a k (shuffleIndex 2147483647 4 k (random k))) offsets) :=
  ⟨by decide, shuffleIndex_in_range 2147483647 4 2 2147483647 (by decide) (by decide)
    (by decide)⟩

theorem selectCount_eq (RAND_MAX n i k : Nat) :
    selectCount RAND_MAX n i (i + k) =
      min ((k + 1) * (RAND_MAX / (n - i) + 1)) (RAND_MAX + 1) - k * (RAND_MAX / (n - i) + 1) := by
  have hq : 0 < RAND_MAX / (n - i) + 1 := Nat.succ_pos _
  have hset : (Finset.range (RAND_MAX + 1)).filter
      (fun r => shuffleIndex RAND_MAX n i r = i + k) =
      Finset.Ico (k * (RAND_MAX / (n - i) + 1))
        (min ((k + 1) * (RAND_MAX / (n - i) + 1)) (RAND_MAX + 1)) := by
    ext r
    simp only [Finset.mem_filter, Finset.mem_range, Finset.mem_Ico, shuffleIndex,
      Nat.add_left_cancel_iff, lt_min_iff]
    constructor
    · rintro ⟨hr, hdiv⟩
      have h1 : k ≤ r / (RAND_MAX / (n - i) + 1) := by omega
      have h2 : r / (RAND_MAX / (n - i) + 1) < k + 1 := by omega
      exact ⟨(Nat.le_div_iff_mul_le hq).mp h1, (Nat.div_lt_iff_lt_mul hq).mp h2, hr⟩
    · rintro ⟨h1, h2, hr⟩
      have h3 := (Nat.le_div_iff_mul_le hq).mpr h1
      have h4 := (Nat.div_lt_iff_lt_mul hq).mpr h2
      exact ⟨hr, by omega⟩
  unfold selectCount
  rw [hset, Nat.card_Ico]

theorem selectCount_arith (M d q : Nat) (hbig : M < d * q) (hq0 : 1 ≤ q)
    (hd : 1 ≤ d) (hsucc : ∀ k, (k + 1) * q = k * q + q) :
    (∀ k, min ((k + 1) * q) (M + 1) - k * q ≤ q) ∧
    (∀ k, (k + 1) * q ≤ M + 1 → min ((k + 1) * q) (M + 1) - k * q = q) ∧
    (∀ k, M + 1 ≤ k * q → min ((k + 1) * q) (M + 1) - k * q = 0) ∧
    ((∀ k, k < d → min ((k + 1) * q) (M + 1) - k * q = q) ↔ d * q = M + 1) := by
  refine ⟨?_, ?_, ?_, ?_⟩
  · intro k
    have h1 := hsucc k
    have h2 := min_le_left ((k + 1) * q) (M + 1)
    omega
  · intro k hk
    rw [min_eq_left hk]
    have h1 := hsucc k
    omega
  · intro k hk
    have h2 := min_le_right ((k + 1) * q) (M + 1)
    omega
  · constructor
    · intro hall
      have hlast := hall (d - 1) (by omega)
      have h1 := hsucc (d - 1)
      have h2 : d - 1 + 1 = d := by omega
      rw [h2] at hlast h1
      rcases Nat.le_total (d * q) (M + 1) with hle | hge
      · omega
      · rw [min_eq_right hge] at hlast
        omega
    · intro heq k hk
      have hmono : (k + 1) * q ≤ d * q := Nat.mul_le_mul_right _ (by omega)
      rw [min_eq_left (by omega)]
      have h1 := hsucc k
      omega

theorem selectCount_first (RAND_MAX n i : Nat) :
    selectCount RAND_MAX n i i = RAND_MAX / (n - i) + 1 := by
  have h0 := selectCount_eq RAND_MAX n i 0
  rw [Nat.add_zero, Nat.zero_add, Nat.one_mul, Nat.zero_mul, Nat.sub_zero] at h0
  rw [h0]
  exact min_eq_left (Nat.succ_le_succ (Nat.div_le_self _ _))

/-- C16 (as amended): at each step i of `shuffle` (i + 1 < n), with q = RAND_MAX / (n - i) + 1,
the target index i + k is selected by min ((k + 1) × q, RAND_MAX + 1) - k × q of the results
0 .. RAND_MAX of `random ()`: by at most q of them, by exactly q when
(k + 1) × q <= RAND_MAX + 1, and by none when k × q >= RAND_MAX + 1.  All target indices in
[i, n) are selected by the same number of results if and only if
(n - i) × q = RAND_MAX + 1. -/
theorem shuffle_select_count (RAND_MAX n i : Nat) (hi : i + 1 < n) :
    (∀ k, selectCount RAND_MAX n i (i + k) =
      min ((k + 1) * (RAND_MAX / (n - i) + 1)) (RAND_MAX + 1)
        - k * (RAND_MAX / (n - i) + 1)) ∧
    (∀ k, selectCount RAND_MAX n i (i + k) ≤ RAND_MAX / (n - i) + 1) ∧
    (∀ k, (k + 1) * (RAND_MAX / (n - i) + 1) ≤ RAND_MAX + 1 →
      selectCount RAND_MAX n i (i + k) = RAND_MAX / (n - i) + 1) ∧
    (∀ k, RAND_MAX + 1 ≤ k * (RAND_MAX / (n - i) + 1) →
      selectCount RAND_MAX n i (i + k) = 0) ∧
    ((∀ k, k < n - i → selectCount RAND_MAX n i (i + k) = RAND_MAX / (n - i) + 1) ↔
      (n - i) * (RAND_MAX / (n - i) + 1) = RAND_MAX + 1) ∧
    ((∀ j1 j2, i ≤ j1 → j1 < n → i ≤ j2 → j2 < n →
        selectCount RAND_MAX n i j1 = selectCount RAND_MAX n i j2) ↔
      (n - i) * (RAND_MAX / (n - i) + 1) = RAND_MAX + 1) := by
  have hbig : RAND_MAX < (n - i) * (RAND_MAX / (n - i) + 1) := by
    have hd : 0 < n - i := by omega
    have hmod := Nat.mod_lt RAND_MAX hd
    have hdiv := Nat.div_add_mod RAND_MAX (n - i)
    rw [Nat.mul_add, Nat.mul_one]
    omega
  have harith := selectCount_arith RAND_MAX (n - i) (RAND_MAX / (n - i) + 1) hbig
    (Nat.succ_pos _) (by omega) (fun k => Nat.succ_mul _ _)
  have hall : (∀ k, k < n - i → selectCount RAND_MAX n i (i + k) = RAND_MAX / (n - i) + 1) ↔
      (n - i) * (RAND_MAX / (n - i) + 1) = RAND_MAX + 1 := by
    simp only [selectCount_eq]
    exact harith.2.2.2
  refine ⟨selectCount_eq RAND_MAX n i, ?_, ?_, ?_, hall, ?_⟩
  · simp only [selectCount_eq]
    exact harith.1
  · simp only [selectCount_eq]
    exact harith.2.1
  · simp only [selectCount_eq]
    exact harith.2.2.1
  · constructor
    · intro hsame
      apply hall.mp
      intro k hk
      rw [hsame (i + k) i (by omega) (by omega) (le_refl i) (by omega)]
      exact selectCount_first RAND_MAX n i
    · intro heq j1 j2 h1 h2 h3 h4
      have e1 : j1 = i + (j1 - i) := by omega
      have e2 : j2 = i + (j2 - i) := by omega
      rw [e1, e2, hall.mpr heq (j1 - i) (by omega), hall.mpr heq (j2 - i) (by omega)]

theorem shuffle_select_count_witness :
    (0 : Nat) + 1 < 4 ∧
    (∀ k, selectCount 2147483647 4 0 (0 + k) =
      min ((k + 1) * (2147483647 / (4 - 0) + 1)) (2147483647 + 1)
        - k * (2147483647 / (4 - 0) + 1)) ∧
    (∀ k, selectCount 2147483647 4 0 (0 + k) ≤ 2147483647 / (4 - 0) + 1) ∧
    (∀ k, (k + 1) * (2147483647 / (4 - 0) + 1) ≤ 2147483647 + 1 →
      selectCount 2147483647 4 0 (0 + k) = 2147483647 / (4 - 0) + 1) ∧
    (∀ k, 2147483647 + 1 ≤ k * (2147483647 / (4 - 0) + 1) →
      selectCount 2147483647 4 0 (0 + k) = 0) ∧
    ((∀ k, k < 4 - 0 → selectCount 2147483647 4 0 (0 + k) = 2147483647 / (4 - 0) + 1) ↔
      (4 - 0) * (2147483647 / (4 - 0) + 1) = 2147483647 + 1) ∧
    ((∀ j1 j2, 0 ≤ j1 → j1 < 4 → 0 ≤ j2 → j2 < 4 →
        selectCount 2147483647 4 0 j1 = selectCount 2147483647 4 0 j2) ↔
      (4 - 0) * (2147483647 / (4 - 0) + 1) = 2147483647 + 1) :=
  ⟨by decide, shuffle_select_count 2147483647 4 0 (by decide)⟩

/-- C16 (counterexample): with RAND_MAX = 2147483647 and n = 3, at step 0 the indices 0 and 1
are each selected by 715827883 results of `random ()` and the index 2 by 715827882. -/
theorem shuffle_select_count_biased :
    selectCount 2147483647 3 0 0 = 715827883 ∧
    selectCount 2147483647 3 0 1 = 715827883 ∧
    selectCount 2147483647 3 0 2 = 715827882 := by
  have h0 := selectCount_eq 2147483647 3 0 0
  have h1 := selectCount_eq 2147483647 3 0 1
  have h2 := selectCount_eq 2147483647 3 0 2
  norm_num at h0 h1 h2
  exact ⟨h0, h1, h2⟩

/-! ## The exits of `getsize` and of the option loop -/

theorem strchr_eq_none_iff (l : List Char) (c : Char) : strchr l c = none ↔ c ∉ l := by
  induction l with
  | nil => simp [strchr]
  | cons x xs ih =>
    by_cases hx : x = c
    · simp [strchr, hx]
    · simp [strchr, hx, ih, Ne.symm hx]

theorem tolower_mem_suffix_iff (c : Char) :
    tolower c ∈ suffix ↔ c ∈ unitsLower ++ unitsUpper := by
  by_cases hup : 65 ≤ c.toNat ∧ c.toNat ≤ 90
  · have hc : c = Char.ofNat c.toNat := (Char.ofNat_toNat c).symm
    obtain ⟨m, hm⟩ : ∃ m, m = c.toNat := ⟨_, rfl⟩
    rw [← hm] at hup hc
    obtain ⟨h1, h2⟩ := hup
    subst hc
    interval_cases m <;> decide
  · have hlow : tolower c = c := by
      unfold tolower
      rw [if_neg hup]
    rw [hlow]
    constructor
    · intro h
      exact List.mem_append_left _ h
    · intro h
      rcases List.mem_append.mp h with h | h
      · exact h
      · exfalso
        apply hup
        simp only [unitsUpper, List.mem_cons, List.mem_singleton, List.not_mem_nil,
          or_false] at h
        rcases h with rfl | rfl | rfl | rfl | rfl | rfl | rfl <;> decide

theorem getsize_of_strtoull (blocksize : Int) (arg e : List Char) (v : Nat)
    (h : strtoull arg = (v, e)) :
    getsize blocksize arg =
      if deref e = Char.ofNat 0 then Except.ok (wrapOff (wrapOff (v : Int) * blocksize))
      else match strchr suffix (tolower (deref e)) with
        | some k => Except.ok (wrapOff (wrapOff (v : Int) * 2 ^ (10 * k)))
        | none => Except.error 1 := by
  unfold getsize
  simp only [h]

/-- C17: `getsize` ends the program, with status 1, exactly when the character at which
`strtoull` stopped is neither the end of the string nor one of b, k, m, g, t, p, e in either
case; what follows that character does not change the result; and a string in which
`strtoull` finds no digit is treated as the integer 0. -/
theorem getsize_exit_iff (blocksize : Int) (arg : List Char) :
    (getsize blocksize arg = Except.error 1 ↔
      deref (strtoull arg).2 ∉ Char.ofNat 0 :: (unitsLower ++ unitsUpper)) ∧
    (∀ k, getsize blocksize arg = Except.error k → k = 1) ∧
    (∀ (ds : List Char) (c : Char) (t1 t2 : List Char), ds ≠ [] →
      (∀ d ∈ ds, isdigit d = true) → isdigit c = false →
      getsize blocksize (ds ++ c :: t1) = getsize blocksize (ds ++ c :: t2)) ∧
    (isdigit (deref (skipSign (skipSpace arg)).2) = false →
      strtoull arg = (0, arg) ∧
      (getsize blocksize arg = Except.ok 0 ∨ getsize blocksize arg = Except.error 1)) ∧
    getsize blocksize ['k', '1', '2'] = Except.ok 0 ∧
    getsize blocksize [] = Except.ok 0 := by
  have hw0 : ∀ x : Int, wrapOff (wrapOff ((0 : Nat) : Int) * x) = 0 := by
    intro x
    rw [wrapOff_mul_wrapOff, Nat.cast_zero, zero_mul]
    rfl
  have hnodigit : ∀ a : List Char, isdigit (deref (skipSign (skipSpace a)).2) = false →
      strtoull a = (0, a) ∧
      (getsize blocksize a = Except.ok 0 ∨ getsize blocksize a = Except.error 1) := by
    intro a hnd
    have hst : strtoull a = (0, a) := by
      unfold strtoull
      simp only [hnd]
      rfl
    refine ⟨hst, ?_⟩
    rw [getsize_of_strtoull blocksize a a 0 hst]
    split
    · left
      rw [hw0]
    · split
      · left
        rw [hw0]
      · right
        rfl
  have hform := getsize_of_strtoull blocksize arg (strtoull arg).2 (strtoull arg).1 rfl
  refine ⟨?_, ?_, ?_, hnodigit arg, ?_, ?_⟩
  · rw [hform]
    by_cases hz : deref (strtoull arg).2 = Char.ofNat 0
    · simp [hz]
    · rw [if_neg hz]
      rw [List.mem_cons, not_or, ← tolower_mem_suffix_iff, ← strchr_eq_none_iff]
      cases hs : strchr suffix (tolower (deref (strtoull arg).2)) with
      | none => simp [hz]
      | some k => simp
  · intro k hk
    rw [hform] at hk
    split at hk
    · exact absurd hk (by simp)
    · split at hk
      · exact absurd hk (by simp)
      · exact (Except.error.inj hk).symm
  · intro ds c t1 t2 hne hds hc
    have h1 := strtoull_digits ds (c :: t1) hne hds (by simpa [deref] using hc)
    have h2 := strtoull_digits ds (c :: t2) hne hds (by simpa [deref] using hc)
    rw [getsize_of_strtoull blocksize _ _ _ h1, getsize_of_strtoull blocksize _ _ _ h2]
    rfl
  · have hk := hnodigit ['k', '1', '2'] (by decide)
    have hd : deref ['k', '1', '2'] ≠ Char.ofNat 0 := by decide
    have hs : strchr suffix (tolower (deref ['k', '1', '2'])) = some 1 := by decide
    rw [getsize_of_strtoull blocksize _ _ 0 hk.1]
    simp only [if_neg hd, hs, hw0]
  · have hk := hnodigit [] (by decide)
    have hd : deref ([] : List Char) = Char.ofNat 0 := rfl
    rw [getsize_of_strtoull blocksize _ _ 0 hk.1]
    simp only [hd, if_true, hw0]

theorem optionLoop_help (before after : List (Int × List Char)) (optarg : List Char)
    (hbefore : ∀ o ∈ before, o.1 ∈ [(0 : Int), 98, 115, 119, 105, 100, 114]) :
    ∀ st : ParseState, optionLoop (before ++ (104, optarg) :: after) st
      = Except.error { usage := true, status := 0 } := by
  induction before with
  | nil =>
    intro st
    rw [List.nil_append, optionLoop]
    simp
  | cons o rest ih =>
    intro st
    obtain ⟨c, a⟩ := o
    have hc : c ∈ [(0 : Int), 98, 115, 119, 105, 100, 114] :=
      hbefore (c, a) (List.mem_cons_self _ _)
    have hrest : ∀ o ∈ rest, o.1 ∈ [(0 : Int), 98, 115, 119, 105, 100, 114] :=
      fun o ho => hbefore o (List.mem_cons_of_mem _ ho)
    simp only [List.mem_cons, List.mem_singleton, List.not_mem_nil, or_false] at hc
    rw [List.cons_append, optionLoop]
    rcases hc with rfl | rfl | rfl | rfl | rfl | rfl | rfl <;> simp [ih hrest]

/-- C14 (as amended): when `getopt_long` returns the help flag before it returns anything but
the options b, s, w, i, d, r (so before any '?' for an unrecognised option or a missing
argument), `parse_command_line` calls `usage ()` and exits with status 0, whatever the option
arguments, the later options and the remaining parameters are: no size is parsed before. -/
theorem help_exits_zero (sizeofInt : Nat) (before after : List (Int × List Char))
    (optarg : List Char) (remaining : Nat) (openOk : Bool)
    (hbefore : ∀ o ∈ before, o.1 ∈ [(0 : Int), 98, 115, 119, 105, 100, 114]) :
    parse_command_line sizeofInt (before ++ (104, optarg) :: after) remaining openOk
      = Except.error { usage := true, status := 0 } := by
  unfold parse_command_line
  rw [optionLoop_help before after optarg hbefore parseInit]

theorem help_exits_zero_witness :
    (∀ o ∈ [((98 : Int), "12x".toList), (114, [])],
      o.1 ∈ [(0 : Int), 98, 115, 119, 105, 100, 114]) ∧
    parse_command_line 4 ([(98, "12x".toList), (114, [])] ++ (104, []) :: [(63, [])]) 0 false
      = Except.error { usage := true, status := 0 } :=
  ⟨by decide, help_exits_zero 4 [(98, "12x".toList), (114, [])] [(63, [])] [] 0 false
    (by decide)⟩

/-- C14 (counterexample): on the command line `-x -h FILE` `getopt_long` returns '?' (63) for
the unrecognised option before it would return 'h' (104); `usage ()` is called and the program
exits with status 1. -/
theorem help_after_unknown_option :
    parse_command_line 4 [(63, []), (104, [])] 1 true
      = Except.error { usage := true, status := 1 } := by
  decide

end Sparsetest
